import Mathlib

/-!
Verification of the duck-spielwiese lexer (`src/parse/lexer.rs`).

The Rust source is a chumsky parser-combinator lexer.  We embed it shallowly:
a parser is a function from the remaining input (a `List Char`) and the current
absolute offset to a result consisting of an optional output (value, remaining
input, new offset) together with the best "alternative" error seen so far.
This mirrors chumsky's semantics for the combinators the lexer uses:

* `or` is ordered choice with full backtracking; of the errors produced by
  failed branches the one that made the most progress is kept (chumsky's
  furthest-error `add_alt` policy);
* `repeated` retries the inner parser until it fails, rewinding the input to
  the state before the failed attempt;
* `rewind` parses but restores the input on success;
* `padded` skips any run of whitespace before and after the inner parser;
* `Parser::parse` runs the parser and then requires end of input.

Offsets are counted in characters; the Rust spans are byte offsets, and the
two coincide on the ASCII inputs all the claims are about.  The recursive
parsers (`lex_fstring_tokens`, `go_text_parser`, and `lex_single` itself) are
embedded with an explicit fuel parameter; every recursive descent in the
source consumes at least one character, so fuel `input.length + 1` is always
sufficient and the fuel-exhaustion branch is unreachable on the actual calls.
-/

namespace DuckLexer

/-- Source-file identity attached to every span (`Context` in `src/parse`). -/
structure Context where
  file_name : String
  file_contents : String
deriving Repr, DecidableEq

/-- A span: `(start, end)` offsets into the original file plus its `Context`
(the source's `SS` struct).  The Rust field `end` is called `endPos` here
because `end` is a Lean keyword. -/
structure SS where
  start : Nat
  endPos : Nat
  context : Context
deriving Repr, DecidableEq

/-- Modelled from the spec: `empty_range` (defined in `value_parser`, a file of
this repository that is not part of the lexer source under `src/`) returns the
sentinel "empty" span used for position-independent structural comparison of
tokens.  We model it as the span `(0, 0)` with an empty context; all that the
claims need is that it is a fixed sentinel distinct from the real spans the
dispatcher computes. -/
def empty_range : SS := ⟨0, 0, ⟨"", ""⟩⟩

mutual

/-- `Token` from `src/parse/lexer.rs`.  `FloatLiteral` holds the decimal
numeral (the string `format!("{pre}{frac}")` that the Rust code feeds to the
`f64` parser) rather than an IEEE value, since floating point has no shallow
embedding; every claim about floats only concerns which characters form the
literal. -/
inductive Token where
  | Use
  | Type
  | Go
  | Struct
  | Duck
  | Function
  | Return
  | Ident (s : String)
  | ControlChar (c : Char)
  | StringLiteral (s : String)
  | FormatStringLiteral (contents : List FmtStringContents)
  | IntLiteral (n : Int)
  | BoolLiteral (b : Bool)
  | CharLiteral (c : Char)
  | FloatLiteral (numeral : String)
  | Equals
  | Match
  | If
  | Else
  | Let
  | While
  | Break
  | Continue
  | As
  | InlineGo (s : String)
  | Module
  | ScopeRes
  | ThinArrow

/-- `FmtStringContents` from the source: a literal character or a nested list
of spanned tokens. -/
inductive FmtStringContents where
  | Char (c : Char)
  | Tokens (toks : List (Token × SS))

end

/-- A lexical error: `prio` is the furthest-progress offset chumsky uses to
select which alternative's error is reported, `(start, endPos)` is the span of
the reported error, `msg` its message. -/
structure LexErr where
  prio : Nat
  start : Nat
  endPos : Nat
  msg : String
deriving Repr, DecidableEq

/-- Result of running a parser: optional output `(value, rest, offset)` plus
the best error among the alternatives attempted so far. -/
structure PRes (α : Type) where
  out : Option (α × List Char × Nat)
  alt : Option LexErr

abbrev P (α : Type) := List Char → Nat → PRes α

/-- Keep the error that made more progress.  chumsky merges same-position
errors, and custom (`Rich::custom`) reasons survive that merge; we model the
merged error by the newer of the two, which in particular keeps exactly the
message and span of the one error this lexer's own code constructs (the
`Invalid integer` overflow error with the digit run's span). -/
def mergeAlt : Option LexErr → Option LexErr → Option LexErr
  | none, b => b
  | some a, none => some a
  | some a, some b => if b.prio < a.prio then some a else some b

def eofErr (p : Nat) (expected : String) : LexErr :=
  ⟨p, p, p, "found end of input, expected " ++ expected⟩

def charErr (p : Nat) (expected : String) : LexErr :=
  ⟨p, p, p + 1, "expected " ++ expected⟩

/-- `any().filter(f)`: consume one character satisfying `f`. -/
def anyFilter (f : Char → Bool) (expected : String) : P Char := fun s p =>
  match s with
  | [] => ⟨none, some (eofErr p expected)⟩
  | c :: rest =>
    if f c then ⟨some (c, rest, p + 1), none⟩ else ⟨none, some (charErr p expected)⟩

/-- `just(c)` for a single character. -/
abbrev justC (c : Char) : P Char := anyFilter (fun d => d == c) (toString c)

/-- `none_of(bad)`. -/
abbrev noneOf (bad : List Char) : P Char :=
  anyFilter (fun c => !(bad.contains c)) "other character"

/-- `one_of(set)`. -/
abbrev oneOf (set : List Char) : P Char :=
  anyFilter (fun c => set.contains c) "one of the expected characters"

/-- `just(str)` for a character sequence: match it character by character. -/
def justList : List Char → P Unit
  | [], s, p => ⟨some ((), s, p), none⟩
  | c :: t, s, p =>
    match s with
    | [] => ⟨none, some (eofErr p (toString c))⟩
    | d :: srest =>
      if d == c then justList t srest (p + 1) else ⟨none, some (charErr p (toString c))⟩

abbrev justS (t : String) : P Unit := justList t.toList

def pmap {α β : Type} (pa : P α) (f : α → β) : P β := fun s p =>
  let r := pa s p
  ⟨r.out.map (fun x => (f x.1, x.2.1, x.2.2)), r.alt⟩

/-- Ordered choice (`a.or(b)`): try `a`, and only on its failure try `b` from
the same position. -/
def orP {α : Type} (pa pb : P α) : P α := fun s p =>
  let ra := pa s p
  match ra.out with
  | some o => ⟨some o, ra.alt⟩
  | none =>
    let rb := pb s p
    ⟨rb.out, mergeAlt ra.alt rb.alt⟩

/-- Sequencing (`a.then(b)`). -/
def thenP {α β : Type} (pa : P α) (pb : P β) : P (α × β) := fun s p =>
  let ra := pa s p
  match ra.out with
  | none => ⟨none, ra.alt⟩
  | some (a, s2, p2) =>
    let rb := pb s2 p2
    ⟨rb.out.map (fun x => ((a, x.1), x.2.1, x.2.2)), mergeAlt ra.alt rb.alt⟩

def ignoreThen {α β : Type} (pa : P α) (pb : P β) : P β :=
  pmap (thenP pa pb) Prod.snd

def thenIgnore {α β : Type} (pa : P α) (pb : P β) : P α :=
  pmap (thenP pa pb) Prod.fst

/-- `rewind()`: parse, but restore the input position on success. -/
def rewindP {α : Type} (pa : P α) : P α := fun s p =>
  let r := pa s p
  match r.out with
  | some (a, _, _) => ⟨some (a, s, p), r.alt⟩
  | none => ⟨none, r.alt⟩

/-- `or_not()`. -/
def orNot {α : Type} (pa : P α) : P (Option α) := fun s p =>
  let r := pa s p
  match r.out with
  | some (a, s2, p2) => ⟨some (some a, s2, p2), r.alt⟩
  | none => ⟨some (none, s, p), r.alt⟩

/-- Worker for `repeated()`: retry `pa` until it fails, rewinding the failed
attempt; the fuel only bounds the iteration count for Lean's termination
checker and is always instantiated large enough (every success of the parsers
used under `repeated` consumes at least one character). -/
def repeatedAux {α : Type} (pa : P α) :
    Nat → List Char → Nat → List α → Option LexErr → PRes (List α)
  | 0, s, p, acc, alt => ⟨some (acc.reverse, s, p), alt⟩
  | fuel + 1, s, p, acc, alt =>
    let r := pa s p
    match r.out with
    | some (a, s2, p2) => repeatedAux pa fuel s2 p2 (a :: acc) (mergeAlt alt r.alt)
    | none => ⟨some (acc.reverse, s, p), mergeAlt alt r.alt⟩

def repeatedP {α : Type} (pa : P α) : P (List α) := fun s p =>
  repeatedAux pa (s.length + 1) s p [] none

/-- `to_slice()`: run the inner parser and output the consumed characters. -/
def toSlice {α : Type} (pa : P α) : P (List Char) := fun s p =>
  let r := pa s p
  match r.out with
  | some (_, s2, p2) => ⟨some (s.take (p2 - p), s2, p2), r.alt⟩
  | none => ⟨none, r.alt⟩

/-- `try_map`: the fallible map receives the span of the consumed input; on
failure the custom error is recorded at the post-consumption offset (chumsky
records `try_map` errors at the current offset, which is why they win the
furthest-error selection). -/
def tryMapE {α β : Type} (pa : P α) (f : α → Nat × Nat → Except String β) : P β := fun s p =>
  let r := pa s p
  match r.out with
  | some (a, s2, p2) =>
    match f a (p, p2) with
    | .ok b => ⟨some (b, s2, p2), r.alt⟩
    | .error msg => ⟨none, mergeAlt r.alt (some ⟨p2, p, p2, msg⟩)⟩
  | none => ⟨none, r.alt⟩

/-- `map_with(|t, e| ... e.span() ...)`: map with the consumed span. -/
def mapWithSpan {α β : Type} (pa : P α) (f : α → Nat → Nat → β) : P β := fun s p =>
  let r := pa s p
  match r.out with
  | some (a, s2, p2) => ⟨some (f a p p2, s2, p2), r.alt⟩
  | none => ⟨none, r.alt⟩

/-- ASCII whitespace as recognized by `char::is_whitespace` (the Unicode-only
whitespace code points never occur in the claims' inputs). -/
def isWs (c : Char) : Bool :=
  c == ' ' || c == '\t' || c == '\n' || c == '\r' || c == '\x0b' || c == '\x0c'

/-- `padded()`: skip whitespace before and after the inner parser. -/
def padded {α : Type} (pa : P α) : P α := fun s p =>
  let r := pa (s.dropWhile isWs) (p + (s.takeWhile isWs).length)
  match r.out with
  | some (a, s2, p2) =>
    ⟨some (a, s2.dropWhile isWs, p2 + (s2.takeWhile isWs).length), r.alt⟩
  | none => ⟨none, r.alt⟩

/-- `whitespace().at_least(1)`: require at least one whitespace character and
consume the whole run. -/
def whitespaceAtLeast1 : P Unit := fun s p =>
  match s with
  | [] => ⟨none, some (eofErr p "whitespace")⟩
  | c :: _ =>
    if isWs c then ⟨some ((), s.dropWhile isWs, p + (s.takeWhile isWs).length), none⟩
    else ⟨none, some (charErr p "whitespace")⟩

/-- Unreachable fuel-exhaustion failure of the embedded recursive parsers. -/
def pfuel {α : Type} : P α := fun _ p => ⟨none, some ⟨p, p, p, "recursion fuel exhausted"⟩⟩

/-! The token sub-lexers, one definition per Rust function or local parser. -/

/-- The keyword table of `keyword_or_ident` in `lex_single`. -/
def keywordTok (s : String) : Token :=
  match s with
  | "module" => Token.Module
  | "use" => Token.Use
  | "type" => Token.Type
  | "duck" => Token.Duck
  | "go" => Token.Go
  | "struct" => Token.Struct
  | "fn" => Token.Function
  | "return" => Token.Return
  | "let" => Token.Let
  | "if" => Token.If
  | "else" => Token.Else
  | "while" => Token.While
  | "break" => Token.Break
  | "continue" => Token.Continue
  | "as" => Token.As
  | "match" => Token.Match
  | s => Token.Ident s

def isIdentStart (c : Char) : Bool := c.isAlpha || c == '_'

def isIdentCont (c : Char) : Bool := c.isAlphanum || c == '_'

/-- `text::ident()`: a maximal run of identifier characters (letter or
underscore first, alphanumeric or underscore afterwards). -/
def text_ident : P (List Char) :=
  toSlice (thenP (anyFilter isIdentStart "identifier")
    (repeatedP (anyFilter isIdentCont "identifier character")))

/-- `keyword_or_ident` in `lex_single`: the whole maximal-munch identifier is
looked up in the keyword table. -/
def keyword_or_ident : P Token :=
  pmap text_ident (fun cs => keywordTok (String.mk cs))

/-- The control-character set of `one_of("!=:\x7b\x7d;,&()->.+-*/%|[]")`. -/
def ctrlChars : List Char :=
  ['!', '=', ':', '\x7b', '\x7d', ';', ',', '&', '(', ')', '-', '>', '.', '+',
   '-', '*', '/', '%', '|', '[', ']']

def ctrl : P Token := pmap (oneOf ctrlChars) Token.ControlChar

/-- `string_lexer`: a `"`-delimited literal whose body is non-special
characters or the escapes `\\`, `\n`, `\t`, `\"`. -/
def string_lexer : P Token :=
  pmap
    (thenIgnore
      (ignoreThen (justC '"')
        (repeatedP
          (orP (noneOf ['\\', '\n', '\t', '"'])
            (orP (pmap (justS "\\\\") (fun _ => '\\'))
              (orP (pmap (justS "\\n") (fun _ => '\n'))
                (orP (pmap (justS "\\t") (fun _ => '\t'))
                  (pmap (justS "\\\"") (fun _ => '"'))))))))
      (justC '"'))
    (fun cs => Token.StringLiteral (String.mk cs))

/-- The `bool` parser in `lex_single`: a plain `just("true")`/`just("false")`
choice (notably not guarded against a following identifier character). -/
def bool_lexer : P Token :=
  orP (pmap (justS "true") (fun _ => Token.BoolLiteral true))
    (pmap (justS "false") (fun _ => Token.BoolLiteral false))

/-- `char_lexer`: a `'`-delimited single character with the escapes `\\`,
`\n`, `\t`, `\'`. -/
def char_lexer : P Token :=
  pmap
    (thenIgnore
      (ignoreThen (justC '\'')
        (orP (noneOf ['\\', '\n', '\t', '\''])
          (orP (pmap (justS "\\\\") (fun _ => '\\'))
            (orP (pmap (justS "\\n") (fun _ => '\n'))
              (orP (pmap (justS "\\t") (fun _ => '\t'))
                (pmap (justList ['\\', '\'']) (fun _ => '\'')))))))
      (justC '\''))
    Token.CharLiteral

/-- `text::int(10)`: either a nonzero digit followed by any digits, or the
single digit `0` (no leading zeros), yielding the consumed slice. -/
def text_int : P (List Char) :=
  orP
    (toSlice (thenP (anyFilter (fun c => c.isDigit && !(c == '0')) "nonzero digit")
      (repeatedP (anyFilter Char.isDigit "digit"))))
    (toSlice (justC '0'))

def digitsToNat (cs : List Char) : Nat :=
  cs.foldl (fun acc c => acc * 10 + (c.toNat - '0'.toNat)) 0

def i64Max : Nat := 9223372036854775807

/-- Rust's `str::parse::<i64>()` on a run of decimal digits (no sign can occur
here): the value, unless it overflows a signed 64-bit integer. -/
def parse_i64 (cs : List Char) : Option Int :=
  if digitsToNat cs ≤ i64Max then some (Int.ofNat (digitsToNat cs)) else none

/-- `num_literal`: an integer run (failing with the custom `Invalid integer`
error on i64 overflow), optionally followed by `.` and at least one digit; the
fractional slice includes the dot, and the float numeral is
`format!("{pre}{frac}")`. -/
def num_literal : P Token :=
  pmap
    (thenP
      (tryMapE text_int (fun cs _span =>
        match parse_i64 cs with
        | some v => .ok v
        | none => .error "Invalid integer"))
      (orNot (toSlice (ignoreThen (justC '.')
        (thenP (anyFilter Char.isDigit "digit") (repeatedP (anyFilter Char.isDigit "digit")))))))
    (fun x =>
      match x.2 with
      | some fr => Token.FloatLiteral (toString x.1 ++ String.mk fr)
      | none => Token.IntLiteral x.1)

/-- `go_text_parser` (renamed: Lean names here may not end in that suffix):
brace-balanced verbatim capture, keeping the outer braces of the level it
parses.  The fuel bounds the brace-nesting recursion. -/
def go_text : Nat → P String
  | 0 => pfuel
  | fuel + 1 =>
    pmap
      (thenIgnore
        (ignoreThen (justS "\x7b")
          (repeatedP
            (orP (ignoreThen (rewindP (justS "\x7b")) (go_text fuel))
              (pmap (anyFilter (fun c => !(c == '\x7b') && !(c == '\x7d')) "non-brace")
                (fun c => String.mk [c])))))
        (justS "\x7d"))
      (fun xs => "\x7b" ++ String.join xs ++ "\x7d")

/-- `inline_go_parser` (renamed as above): `go`, at least one whitespace
character, then a brace-balanced block captured with the outermost brace pair
stripped. -/
def inline_go (fuel : Nat) : P Token :=
  pmap
    (ignoreThen (justS "go")
      (ignoreThen whitespaceAtLeast1
        (ignoreThen (rewindP (justS "\x7b")) (go_text fuel))))
    (fun x => Token.InlineGo (String.mk ((x.toList.drop 1).dropLast)))

/-- `lex_fstring_tokens`: an embedded `\x7b...\x7d` section of a format
string.  Nested brace groups recurse (fuel-bounded); any other non-brace
character hands over to the full dispatcher `lexer`.  The synthesized boundary
`\x7b`/`\x7d` control-character tokens are pushed with `empty_range()`. -/
def lex_fstring_tokens (lexer : P (Token × SS)) : Nat → P (List (Token × SS))
  | 0 => pfuel
  | fuel + 1 =>
    pmap
      (thenIgnore
        (ignoreThen (justS "\x7b")
          (repeatedP
            (orP (ignoreThen (rewindP (justS "\x7b")) (lex_fstring_tokens lexer fuel))
              (pmap
                (ignoreThen
                  (rewindP (anyFilter (fun c => !(c == '\x7b') && !(c == '\x7d'))
                    "section character"))
                  lexer)
                (fun x => [x])))))
        (justS "\x7d"))
      (fun x =>
        ((Token.ControlChar '\x7b', empty_range) :: x.flatten)
          ++ [(Token.ControlChar '\x7d', empty_range)])

/-- The `fmt_string` parser in `lex_single`: `f"` followed by a mix of literal
characters (with the escapes `\\`, `\{`, `\n`, `\t`, `\"`) and embedded token
sections; the outermost boundary tokens of each section are stripped
(`e[1..e.len() - 1]`). -/
def fmt_string (lexer : P (Token × SS)) (fuel : Nat) : P Token :=
  pmap
    (thenIgnore
      (ignoreThen (justS "f")
        (ignoreThen (justC '"')
          (repeatedP
            (orP
              (pmap (ignoreThen (rewindP (justS "\x7b")) (lex_fstring_tokens lexer fuel))
                (fun e => FmtStringContents.Tokens ((e.drop 1).dropLast)))
              (pmap
                (orP (noneOf ['\\', '\n', '\t', '"'])
                  (orP (pmap (justS "\\\\") (fun _ => '\\'))
                    (orP (pmap (justS "\\\x7b") (fun _ => '\x7b'))
                      (orP (pmap (justS "\\n") (fun _ => '\n'))
                        (orP (pmap (justS "\\t") (fun _ => '\t'))
                          (pmap (justS "\\\"") (fun _ => '"')))))))
                FmtStringContents.Char)))))
      (justC '"'))
    Token.FormatStringLiteral

/-- The `thin_arrow` parser in `lex_single`: `just("->")`. -/
def thin_arrow : P Token := pmap (justS "->") (fun _ => Token.ThinArrow)

/-- The `scope_res` parser in `lex_single`: `just("::")`. -/
def scope_res : P Token := pmap (justS "::") (fun _ => Token.ScopeRes)

/-- The `equals` parser in `lex_single`: `just("==")`. -/
def equals : P Token := pmap (justS "==") (fun _ => Token.Equals)

/-- The ordered `or` chain of the `token` binding in `lex_single`,
parameterized by the recursive dispatcher handle used inside format-string
sections. -/
def token_choice (lexer : P (Token × SS)) (fuel : Nat) : P Token :=
  orP (orP (orP (orP (orP (orP (orP (orP (orP (orP
    (inline_go fuel)
    (fmt_string lexer fuel))
    thin_arrow)
    scope_res)
    bool_lexer)
    equals)
    keyword_or_ident)
    ctrl)
    string_lexer)
    num_literal)
    char_lexer

/-- The `map_with` closure of `lex_single`: pair the token with its consumed
span and the shared file context. -/
def spanned_with (file_name file_contents : String) : Token → Nat → Nat → Token × SS :=
  fun t pstart pend => (t, SS.mk pstart pend (Context.mk file_name file_contents))

/-- `lex_single`: the ordered-alternative dispatcher producing one spanned
token, whitespace-padded.  The fuel bounds the mutual recursion through
format-string sections. -/
def lex_single (file_name file_contents : String) : Nat → P (Token × SS)
  | 0 => pfuel
  | fuel + 1 =>
    padded (mapWithSpan
      (token_choice (lex_single file_name file_contents fuel) fuel)
      (spanned_with file_name file_contents))

/-- `lexer`: the dispatcher repeated until it fails. -/
def lexer (file_name file_contents : String) : P (List (Token × SS)) :=
  repeatedP (lex_single file_name file_contents (file_contents.length + 1))

/-- chumsky's `Parser::parse`: run the parser on the whole input and require
end of input; on failure report the furthest alternative error. -/
def parseStr {α : Type} (pa : P α) (input : String) : Except LexErr α :=
  let r := pa input.toList 0
  match r.out with
  | some (a, [], _) => .ok a
  | some (_, _ :: _, p) =>
    .error ((mergeAlt r.alt (some (charErr p "end of input"))).getD (charErr p "end of input"))
  | none => .error (r.alt.getD (eofErr 0 "any token"))

/-- The production entry point as exercised by the repository's test driver:
`lexer(file_name, file_contents).parse(file_contents)`. -/
def lexFile (file_name file_contents : String) : Except LexErr (List (Token × SS)) :=
  parseStr (lexer file_name file_contents) file_contents

/-- The raw token kinds of a successful lex, spans forgotten. -/
def tokensOf (r : Except LexErr (List (Token × SS))) : Option (List Token) :=
  match r with
  | .ok l => some (l.map Prod.fst)
  | .error _ => none

/-- The error of a failed lex. -/
def errOf {α : Type} (r : Except LexErr α) : Option LexErr :=
  match r with
  | .ok _ => none
  | .error e => some e

/-- The token the dispatcher produces for an identifier-shaped input, derived
from the dispatch order in `lex_single`: the boolean alternative
(`just("true")`/`just("false")`) is tried before `keyword_or_ident`. -/
def classifyIdent (s : String) : Token :=
  if s = "true" then Token.BoolLiteral true
  else if s = "false" then Token.BoolLiteral false
  else keywordTok s

/-- An identifier-shaped character list: letter or underscore first,
alphanumerics or underscores afterwards (such a list never contains a brace
or a quote). -/
def isIdentStr (s : List Char) : Bool :=
  match s with
  | [] => false
  | c :: rest => isIdentStart c && rest.all isIdentCont

mutual

/-- `token_empty_range` from the source: recursively rewrite every span of a
spanned token (including inside nested format-string token lists) to the
sentinel `empty_range`, for position-independent comparison. -/
def token_empty_range : Token × SS → Token × SS
  | (Token.FormatStringLiteral contents, _) =>
    (Token.FormatStringLiteral (contents_empty_range contents), empty_range)
  | (t, _) => (t, empty_range)

def contents_empty_range : List FmtStringContents → List FmtStringContents
  | [] => []
  | FmtStringContents.Char c :: rest => FmtStringContents.Char c :: contents_empty_range rest
  | FmtStringContents.Tokens ts :: rest =>
    FmtStringContents.Tokens (spanned_empty_range ts) :: contents_empty_range rest

def spanned_empty_range : List (Token × SS) → List (Token × SS)
  | [] => []
  | t :: rest => token_empty_range t :: spanned_empty_range rest

end

/-- A span that is a valid offset pair in the coordinate system of a file with
context `ctx` and length `N`. -/
def spanValidb (ctx : Context) (N : Nat) (sp : SS) : Bool :=
  decide (sp.context = ctx) && decide (sp.start ≤ sp.endPos) && decide (sp.endPos ≤ N)

/-- The two synthesized boundary tokens of `lex_fstring_tokens`. -/
def isBoundaryBrace : Token → Bool
  | Token.ControlChar c => c == '\x7b' || c == '\x7d'
  | _ => false

mutual

/-- Well-formedness of every span in a spanned token, recursively through
format-string content: each span is either a valid file-coordinate span, or
the sentinel `empty_range` on a synthesized boundary brace token. -/
def tokWFb (ctx : Context) (N : Nat) : Token × SS → Bool
  | (t, sp) =>
    (spanValidb ctx N sp || (decide (sp = empty_range) && isBoundaryBrace t))
      && innerWFb ctx N t

def innerWFb (ctx : Context) (N : Nat) : Token → Bool
  | Token.FormatStringLiteral cs => contentsWFb ctx N cs
  | _ => true

def contentsWFb (ctx : Context) (N : Nat) : List FmtStringContents → Bool
  | [] => true
  | FmtStringContents.Char _ :: r => contentsWFb ctx N r
  | FmtStringContents.Tokens ts :: r => toksWFb ctx N ts && contentsWFb ctx N r

def toksWFb (ctx : Context) (N : Nat) : List (Token × SS) → Bool
  | [] => true
  | t :: r => tokWFb ctx N t && toksWFb ctx N r

end

/-- A parser consumes forward: on success the position does not decrease and
position plus remaining length is preserved (positions stay in the coordinate
system of the original input). -/
def Consumes {α : Type} (pa : P α) : Prop :=
  ∀ s p x s2 p2, (pa s p).out = some (x, s2, p2) → p ≤ p2 ∧ p2 + s2.length = p + s.length

/-- Every spanned token a parser produces, at a call site consistent with a
file of context `ctx` and length `N`, is span-wellformed. -/
def ProducesWF (ctx : Context) (N : Nat) (pa : P (Token × SS)) : Prop :=
  ∀ s p t sp s2 p2, p + s.length = N →
    (pa s p).out = some ((t, sp), s2, p2) → tokWFb ctx N (t, sp) = true

/-- Every raw token a parser produces, at a consistent call site, has
span-wellformed inner content. -/
def ProducesInner (ctx : Context) (N : Nat) (pa : P Token) : Prop :=
  ∀ s p t s2 p2, p + s.length = N →
    (pa s p).out = some (t, s2, p2) → innerWFb ctx N t = true

/-- Every spanned token in the lists a parser produces, at a consistent call
site, is span-wellformed. -/
def ProducesWFList (ctx : Context) (N : Nat) (pa : P (List (Token × SS))) : Prop :=
  ∀ s p l s2 p2, p + s.length = N →
    (pa s p).out = some (l, s2, p2) → ∀ ts ∈ l, tokWFb ctx N ts = true

/-! Helper lemmas about characters, lists, and the combinator embedding, used
by the universally quantified theorems below. -/

theorem beq_false_of_pred (f : Char → Bool) {c d : Char} (h : f c = true)
    (hd : f d = false) : (c == d) = false := by
  cases hcd : c == d
  · rfl
  · rw [eq_of_beq hcd] at h
    rw [h] at hd
    exact hd

theorem isDigit_false_of_isAlpha {c : Char} (h : c.isAlpha = true) : c.isDigit = false := by
  simp only [Char.isAlpha, Char.isUpper, Char.isLower, Char.isDigit, UInt32.le_def,
    BitVec.le_def, Bool.or_eq_true, Bool.and_eq_true, decide_eq_true_eq] at h ⊢
  simp only [Bool.and_eq_false_iff, decide_eq_false_iff_not, not_le,
    show ((48 : UInt32)).toBitVec.toNat = 48 from rfl,
    show ((57 : UInt32)).toBitVec.toNat = 57 from rfl,
    show ((65 : UInt32)).toBitVec.toNat = 65 from rfl,
    show ((90 : UInt32)).toBitVec.toNat = 90 from rfl,
    show ((97 : UInt32)).toBitVec.toNat = 97 from rfl,
    show ((122 : UInt32)).toBitVec.toNat = 122 from rfl] at h ⊢
  omega

theorem isIdentCont_of_isIdentStart {c : Char} (h : isIdentStart c = true) :
    isIdentCont c = true := by
  simp only [isIdentStart, Bool.or_eq_true] at h
  simp only [isIdentCont, Char.isAlphanum, Bool.or_eq_true]
  rcases h with h | h
  · exact Or.inl (Or.inl h)
  · exact Or.inr h

theorem isDigit_false_of_isIdentStart {c : Char} (h : isIdentStart c = true) :
    c.isDigit = false := by
  simp only [isIdentStart, Bool.or_eq_true] at h
  rcases h with h | h
  · exact isDigit_false_of_isAlpha h
  · rw [eq_of_beq h]
    rfl

theorem isWs_false_of_isIdentCont {c : Char} (h : isIdentCont c = true) : isWs c = false := by
  simp only [isWs,
    beq_false_of_pred isIdentCont h (show isIdentCont ' ' = false from rfl),
    beq_false_of_pred isIdentCont h (show isIdentCont '\t' = false from rfl),
    beq_false_of_pred isIdentCont h (show isIdentCont '\n' = false from rfl),
    beq_false_of_pred isIdentCont h (show isIdentCont '\r' = false from rfl),
    beq_false_of_pred isIdentCont h (show isIdentCont '\x0b' = false from rfl),
    beq_false_of_pred isIdentCont h (show isIdentCont '\x0c' = false from rfl),
    Bool.or_self, Bool.or_false]

theorem takeWhile_eq_self_of_all (f : Char → Bool) :
    ∀ l : List Char, (∀ c ∈ l, f c = true) → l.takeWhile f = l := by
  intro l
  induction l with
  | nil => intro _; rfl
  | cons c rest ih =>
    intro h
    rw [List.takeWhile_cons, if_pos (h c (by simp)), ih (fun x hx => h x (by simp [hx]))]

theorem dropWhile_eq_nil_of_all (f : Char → Bool) :
    ∀ l : List Char, (∀ c ∈ l, f c = true) → l.dropWhile f = [] := by
  intro l
  induction l with
  | nil => intro _; rfl
  | cons c rest ih =>
    intro h
    rw [List.dropWhile_cons, if_pos (h c (by simp))]
    exact ih (fun x hx => h x (by simp [hx]))

theorem justList_out (t : List Char) :
    ∀ (s : List Char) (p : Nat),
      (justList t s p).out =
        if t.isPrefixOf s then some ((), s.drop t.length, p + t.length) else none := by
  induction t with
  | nil => intro s p; simp [justList, List.isPrefixOf]
  | cons c t ih =>
    intro s p
    cases s with
    | nil => simp [justList, List.isPrefixOf]
    | cons d srest =>
      by_cases hdc : d = c
      · subst hdc
        simp only [justList, List.isPrefixOf, beq_self_eq_true, if_true, Bool.true_and,
          List.drop_succ_cons, List.length_cons]
        cases h : t.isPrefixOf srest <;>
          simp [ih, h, Nat.add_comm, Nat.add_assoc, Nat.add_left_comm]
      · have hb : (d == c) = false := by simp [hdc]
        have hb2 : (c == d) = false := by
          cases hcd2 : c == d
          · rfl
          · exact absurd (eq_of_beq hcd2).symm hdc
        simp [justList, List.isPrefixOf, hb, hb2]

theorem repeatedAux_anyFilter_out (f : Char → Bool) (ex : String) :
    ∀ (fuel : Nat) (s : List Char) (p : Nat) (acc : List Char) (alt : Option LexErr),
      s.length < fuel →
      (repeatedAux (anyFilter f ex) fuel s p acc alt).out =
        some (acc.reverse ++ s.takeWhile f, s.dropWhile f, p + (s.takeWhile f).length) := by
  intro fuel
  induction fuel with
  | zero => intro s p acc alt h; exact absurd h (Nat.not_lt_zero _)
  | succ n ih =>
    intro s p acc alt h
    cases s with
    | nil => simp [repeatedAux, anyFilter]
    | cons c rest =>
      by_cases hc : f c = true
      · have hlt : rest.length < n := by
          simpa using Nat.lt_of_succ_lt_succ (by simpa using h)
        simp only [repeatedAux, anyFilter, hc, if_true]
        rw [ih rest (p + 1) (c :: acc) _ hlt]
        simp [List.takeWhile_cons, hc, List.dropWhile_cons, List.append_assoc,
          Nat.add_comm, Nat.add_assoc, Nat.add_left_comm]
      · have hc' : f c = false := by simpa using hc
        simp [repeatedAux, anyFilter, hc', List.takeWhile_cons, List.dropWhile_cons]

theorem repeatedP_anyFilter_out (f : Char → Bool) (ex : String) (s : List Char) (p : Nat) :
    (repeatedP (anyFilter f ex) s p).out =
      some (s.takeWhile f, s.dropWhile f, p + (s.takeWhile f).length) := by
  unfold repeatedP
  rw [repeatedAux_anyFilter_out f ex (s.length + 1) s p [] none (Nat.lt_succ_self _)]
  rfl

theorem orP_out_none {α : Type} {a b : P α} {s : List Char} {p : Nat}
    (h : (a s p).out = none) : (orP a b s p).out = (b s p).out := by
  simp [orP, h]

theorem orP_out_some {α : Type} {a b : P α} {s : List Char} {p : Nat}
    {o : α × List Char × Nat} (h : (a s p).out = some o) : (orP a b s p).out = some o := by
  simp [orP, h]

theorem thenP_out_none {α β : Type} {a : P α} (b : P β) {s : List Char} {p : Nat}
    (h : (a s p).out = none) : (thenP a b s p).out = none := by
  simp [thenP, h]

theorem thenP_out_some {α β : Type} {a : P α} (b : P β) {s : List Char} {p : Nat}
    {x : α} {s2 : List Char} {p2 : Nat} (h : (a s p).out = some (x, s2, p2)) :
    (thenP a b s p).out = (b s2 p2).out.map (fun y => ((x, y.1), y.2.1, y.2.2)) := by
  simp [thenP, h]

theorem pmap_out {α β : Type} (pa : P α) (f : α → β) (s : List Char) (p : Nat) :
    (pmap pa f s p).out = (pa s p).out.map (fun x => (f x.1, x.2.1, x.2.2)) := rfl

theorem ignoreThen_out_none {α β : Type} {a : P α} (b : P β) {s : List Char} {p : Nat}
    (h : (a s p).out = none) : (ignoreThen a b s p).out = none := by
  simp [ignoreThen, pmap_out, thenP_out_none b h]

theorem ignoreThen_out_some {α β : Type} {a : P α} (b : P β) {s : List Char} {p : Nat}
    {x : α} {s2 : List Char} {p2 : Nat} (h : (a s p).out = some (x, s2, p2)) :
    (ignoreThen a b s p).out = (b s2 p2).out := by
  simp only [ignoreThen, pmap_out, thenP_out_some b h]
  cases (b s2 p2).out <;> rfl

theorem thenIgnore_out_none {α β : Type} {a : P α} (b : P β) {s : List Char} {p : Nat}
    (h : (a s p).out = none) : (thenIgnore a b s p).out = none := by
  simp [thenIgnore, pmap_out, thenP_out_none b h]

theorem thenIgnore_out_some {α β : Type} {a : P α} (b : P β) {s : List Char} {p : Nat}
    {x : α} {s2 : List Char} {p2 : Nat} (h : (a s p).out = some (x, s2, p2)) :
    (thenIgnore a b s p).out = (b s2 p2).out.map (fun y => (x, y.2.1, y.2.2)) := by
  simp only [thenIgnore, pmap_out, thenP_out_some b h]
  cases (b s2 p2).out <;> rfl

theorem rewindP_out_none {α : Type} {a : P α} {s : List Char} {p : Nat}
    (h : (a s p).out = none) : (rewindP a s p).out = none := by
  simp [rewindP, h]

theorem rewindP_out_some {α : Type} {a : P α} {s : List Char} {p : Nat}
    {x : α} {s2 : List Char} {p2 : Nat} (h : (a s p).out = some (x, s2, p2)) :
    (rewindP a s p).out = some (x, s, p) := by
  simp [rewindP, h]

theorem orNot_out_none {α : Type} {a : P α} {s : List Char} {p : Nat}
    (h : (a s p).out = none) : (orNot a s p).out = some (none, s, p) := by
  simp [orNot, h]

theorem orNot_out_some {α : Type} {a : P α} {s : List Char} {p : Nat}
    {x : α} {s2 : List Char} {p2 : Nat} (h : (a s p).out = some (x, s2, p2)) :
    (orNot a s p).out = some (some x, s2, p2) := by
  simp [orNot, h]

theorem toSlice_out_none {α : Type} {a : P α} {s : List Char} {p : Nat}
    (h : (a s p).out = none) : (toSlice a s p).out = none := by
  simp [toSlice, h]

theorem toSlice_out_some {α : Type} {a : P α} {s : List Char} {p : Nat}
    {x : α} {s2 : List Char} {p2 : Nat} (h : (a s p).out = some (x, s2, p2)) :
    (toSlice a s p).out = some (s.take (p2 - p), s2, p2) := by
  simp [toSlice, h]

theorem tryMapE_out_none {α β : Type} {a : P α} (f : α → Nat × Nat → Except String β)
    {s : List Char} {p : Nat} (h : (a s p).out = none) : (tryMapE a f s p).out = none := by
  simp [tryMapE, h]

theorem tryMapE_out_ok {α β : Type} {a : P α} {f : α → Nat × Nat → Except String β}
    {s : List Char} {p : Nat} {x : α} {s2 : List Char} {p2 : Nat} {b : β}
    (h : (a s p).out = some (x, s2, p2)) (hf : f x (p, p2) = .ok b) :
    (tryMapE a f s p).out = some (b, s2, p2) := by
  simp [tryMapE, h, hf]

theorem mapWithSpan_out_none {α β : Type} {a : P α} (f : α → Nat → Nat → β)
    {s : List Char} {p : Nat} (h : (a s p).out = none) : (mapWithSpan a f s p).out = none := by
  simp [mapWithSpan, h]

theorem mapWithSpan_out_some {α β : Type} {a : P α} (f : α → Nat → Nat → β)
    {s : List Char} {p : Nat} {x : α} {s2 : List Char} {p2 : Nat}
    (h : (a s p).out = some (x, s2, p2)) :
    (mapWithSpan a f s p).out = some (f x p p2, s2, p2) := by
  simp [mapWithSpan, h]

theorem anyFilter_out_pos {f : Char → Bool} {c : Char} (h : f c = true)
    (ex : String) (rest : List Char) (p : Nat) :
    (anyFilter f ex (c :: rest) p).out = some (c, rest, p + 1) := by
  simp [anyFilter, h]

theorem anyFilter_out_neg {f : Char → Bool} {c : Char} (h : f c = false)
    (ex : String) (rest : List Char) (p : Nat) :
    (anyFilter f ex (c :: rest) p).out = none := by
  simp [anyFilter, h]

theorem pmap_out_none {α β : Type} {a : P α} (f : α → β) {s : List Char} {p : Nat}
    (h : (a s p).out = none) : (pmap a f s p).out = none := by
  rw [pmap_out, h]
  rfl

theorem pmap_out_some {α β : Type} {a : P α} (f : α → β) {s : List Char} {p : Nat}
    {x : α} {s2 : List Char} {p2 : Nat} (h : (a s p).out = some (x, s2, p2)) :
    (pmap a f s p).out = some (f x, s2, p2) := by
  rw [pmap_out, h]
  rfl

theorem padded_out {α : Type} (a : P α) (s : List Char) (p : Nat) :
    (padded a s p).out =
      match (a (s.dropWhile isWs) (p + (s.takeWhile isWs).length)).out with
      | some (x, s2, p2) => some (x, s2.dropWhile isWs, p2 + (s2.takeWhile isWs).length)
      | none => none := by
  unfold padded
  rcases h : (a (s.dropWhile isWs) (p + (s.takeWhile isWs).length)).out with _ | ⟨x, s2, p2⟩ <;>
    simp [h]

theorem justList_out_some {t s : List Char} {p : Nat} (h : t.isPrefixOf s = true) :
    (justList t s p).out = some ((), s.drop t.length, p + t.length) := by
  rw [justList_out, if_pos h]

theorem justList_out_fail {t s : List Char} {p : Nat} (h : t.isPrefixOf s = false) :
    (justList t s p).out = none := by
  rw [justList_out, if_neg]
  rw [h]
  exact Bool.false_ne_true

theorem justList_out_cons_ne {t0 : Char} (trest : List Char) {c : Char} (rest : List Char)
    (p : Nat) (h : (c == t0) = false) :
    (justList (t0 :: trest) (c :: rest) p).out = none := by
  simp [justList, h]

theorem pmap_full {α β : Type} {a : P α} (f : α → β) {s : List Char} {p : Nat}
    {x : α} {s2 : List Char} {p2 : Nat} {e : Option LexErr}
    (h : a s p = ⟨some (x, s2, p2), e⟩) : pmap a f s p = ⟨some (f x, s2, p2), e⟩ := by
  simp [pmap, h]

/-- The dispatcher's alternative chain fails at end of input. -/
theorem token_choice_out_nil (lexer : P (Token × SS)) (fuel q : Nat) :
    (token_choice lexer fuel [] q).out = none := rfl

/-- `lex_single` fails at end of input (for every fuel). -/
theorem lex_single_eof (name contents : String) (fuel p : Nat) :
    (lex_single name contents fuel [] p).out = none := by
  cases fuel with
  | zero => rfl
  | succ n => rfl

/-- Running the repeated dispatcher on input that yields exactly one token and
then hits end of input produces the singleton list. -/
theorem repeatedAux_single_token (pa : P (Token × SS)) (s : List Char) (p n : Nat)
    (tok : Token × SS) (fuel : Nat)
    (h1 : (pa s p).out = some (tok, [], n))
    (h2 : ∀ q, (pa [] q).out = none)
    (hfuel : 2 ≤ fuel) :
    (repeatedAux pa fuel s p [] none).out = some ([tok], [], n) := by
  obtain ⟨k, rfl⟩ : ∃ k, fuel = k + 2 := ⟨fuel - 2, by omega⟩
  show (repeatedAux pa ((k + 1) + 1) s p [] none).out = some ([tok], [], n)
  simp only [repeatedAux, h1]
  simp only [repeatedAux, h2]
  rfl

/-- `lexer(...).parse(contents)` on an input lexing to exactly one token. -/
theorem lexFile_single_token (name : String) (s : List Char) (tok : Token × SS)
    (h1 : (lex_single name (String.mk s) (s.length + 1) s 0).out = some (tok, [], s.length)) :
    lexFile name (String.mk s) = Except.ok [tok] := by
  have H := repeatedAux_single_token (lex_single name (String.mk s) (s.length + 1)) s 0
    s.length tok (s.length + 1)
    h1 (fun q => lex_single_eof name (String.mk s) (s.length + 1) q)
    (by
      have : s ≠ [] := by
        intro hs
        rw [hs] at h1
        rw [lex_single_eof] at h1
        exact Option.noConfusion h1
      cases s with
      | nil => exact absurd rfl this
      | cons a l => simp)
  show parseStr (lexer name (String.mk s)) (String.mk s) = Except.ok [tok]
  unfold parseStr lexer repeatedP
  rw [show (String.mk s).toList = s from rfl, show (String.mk s).length = s.length from rfl]
  simp only [H]

theorem beq_symm_false {a b : Char} (h : (a == b) = false) : (b == a) = false := by
  cases hba : b == a
  · rfl
  · have hab : b = a := eq_of_beq hba
    subst hab
    rw [beq_self_eq_true] at h
    exact h

theorem prefix_false_of_head_ne {t0 : Char} (trest : List Char) {c : Char} (rest : List Char)
    (h : (t0 == c) = false) : List.isPrefixOf (t0 :: trest) (c :: rest) = false := by
  simp [List.isPrefixOf, h]

/-- Character facts about the ten decimal digits, used to run the dispatcher
symbolically on digit-run inputs. -/
theorem digit_char_facts {c : Char} (h : c ∈ "0123456789".toList) :
    c.isDigit = true ∧ isIdentStart c = false ∧ isWs c = false ∧
    ctrlChars.contains c = false ∧ (c == 'g') = false ∧ (c == 'f') = false ∧
    (c == '-') = false ∧ (c == ':') = false ∧ (c == 't') = false ∧
    (c == '=') = false ∧ (c == '"') = false ∧ (c == '\'') = false := by
  fin_cases h <;>
    exact ⟨rfl, rfl, rfl, rfl, rfl, rfl, rfl, rfl, rfl, rfl, rfl, rfl⟩

theorem ctrl_contains_false_of_identCont {c : Char} (h : isIdentCont c = true) :
    ctrlChars.contains c = false := by
  have e : ∀ d : Char, isIdentCont d = false → (c == d) = false :=
    fun d hd => beq_false_of_pred isIdentCont h hd
  simp only [ctrlChars, List.contains, List.elem,
    e '!' (by rfl), e '=' (by rfl), e ':' (by rfl), e '\x7b' (by rfl), e '\x7d' (by rfl),
    e ';' (by rfl), e ',' (by rfl), e '&' (by rfl), e '(' (by rfl), e ')' (by rfl),
    e '-' (by rfl), e '>' (by rfl), e '.' (by rfl), e '+' (by rfl), e '*' (by rfl),
    e '/' (by rfl), e '%' (by rfl), e '|' (by rfl), e '[' (by rfl), e ']' (by rfl)]

/-- `inline_go` fails on any input whose characters contain no whitespace:
either `go` is not a prefix, or the mandatory whitespace after `go` is
missing. -/
theorem inline_go_out_no_ws {c : Char} {rest : List Char} (fuel p : Nat)
    (h : ∀ d ∈ c :: rest, isWs d = false) :
    (inline_go fuel (c :: rest) p).out = none := by
  unfold inline_go
  apply pmap_out_none
  cases hg : c == 'g' with
  | false =>
    apply ignoreThen_out_none
    exact justList_out_cons_ne _ _ _ hg
  | true =>
    cases rest with
    | nil =>
      apply ignoreThen_out_none
      show (justList ['g', 'o'] [c] p).out = none
      simp [justList, hg]
    | cons e r2 =>
      cases ho : e == 'o' with
      | false =>
        apply ignoreThen_out_none
        show (justList ['g', 'o'] (c :: e :: r2) p).out = none
        simp [justList, hg, ho]
      | true =>
        have hj : (justS "go" (c :: e :: r2) p).out = some ((), r2, p + 1 + 1) := by
          show (justList ['g', 'o'] (c :: e :: r2) p).out = some ((), r2, p + 1 + 1)
          simp [justList, hg, ho]
        rw [ignoreThen_out_some _ hj]
        apply ignoreThen_out_none
        cases r2 with
        | nil => rfl
        | cons d r3 =>
          simp [whitespaceAtLeast1, h d (by simp)]

/-- `fmt_string` fails on any input containing no quote character. -/
theorem fmt_string_out_no_quote {L : P (Token × SS)} {fuel : Nat} {c : Char} {rest : List Char}
    (p : Nat) (h : ∀ d ∈ c :: rest, (d == '"') = false) :
    (fmt_string L fuel (c :: rest) p).out = none := by
  unfold fmt_string
  apply pmap_out_none
  apply thenIgnore_out_none
  cases hf : c == 'f' with
  | false =>
    apply ignoreThen_out_none
    exact justList_out_cons_ne _ _ _ hf
  | true =>
    have hj : (justS "f" (c :: rest) p).out = some ((), rest, p + 1) := by
      show (justList ['f'] (c :: rest) p).out = some ((), rest, p + 1)
      simp [justList, hf]
    rw [ignoreThen_out_some _ hj]
    apply ignoreThen_out_none
    cases rest with
    | nil => rfl
    | cons d r2 =>
      exact @anyFilter_out_neg (fun x => x == '"') d (h d (by simp)) _ _ _

theorem bool_lexer_out_fail {s : List Char} {p : Nat}
    (h1 : List.isPrefixOf "true".toList s = false)
    (h2 : List.isPrefixOf "false".toList s = false) :
    (bool_lexer s p).out = none := by
  unfold bool_lexer
  rw [orP_out_none (pmap_out_none _ (justList_out_fail h1))]
  exact pmap_out_none _ (justList_out_fail h2)

theorem keyword_or_ident_out_fail {c : Char} (rest : List Char) (p : Nat)
    (h : isIdentStart c = false) :
    (keyword_or_ident (c :: rest) p).out = none := by
  unfold keyword_or_ident text_ident
  exact pmap_out_none _ (toSlice_out_none (thenP_out_none _ (anyFilter_out_neg h _ _ _)))

/-- `keyword_or_ident` consumes a whole identifier-shaped input and classifies
the full extracted run through the keyword table. -/
theorem keyword_or_ident_out_ident {c : Char} {rest : List Char} (p : Nat)
    (hstart : isIdentStart c = true) (hrest : ∀ x ∈ rest, isIdentCont x = true) :
    (keyword_or_ident (c :: rest) p).out =
      some (keywordTok (String.mk (c :: rest)), [], p + (c :: rest).length) := by
  unfold keyword_or_ident text_ident
  have h1 := anyFilter_out_pos hstart "identifier" rest p
  have h2 : (repeatedP (anyFilter isIdentCont "identifier character") rest (p + 1)).out
      = some (rest, [], p + 1 + rest.length) := by
    rw [repeatedP_anyFilter_out, takeWhile_eq_self_of_all _ rest hrest,
      dropWhile_eq_nil_of_all _ rest hrest]
  have h3 : (thenP (anyFilter isIdentStart "identifier")
      (repeatedP (anyFilter isIdentCont "identifier character")) (c :: rest) p).out
      = some ((c, rest), [], p + 1 + rest.length) := by
    rw [thenP_out_some _ h1, h2]
    rfl
  have h4 := toSlice_out_some h3
  rw [pmap_out, h4]
  have ht : (c :: rest).take (p + 1 + rest.length - p) = c :: rest := by
    have harith : p + 1 + rest.length - p = rest.length + 1 := by omega
    rw [harith, List.take_succ_cons, List.take_length]
  rw [ht]
  have hl : p + 1 + rest.length = p + (c :: rest).length := by
    simp only [List.length_cons]
    omega
  rw [hl]
  rfl

theorem ctrl_out_fail {c : Char} (rest : List Char) (p : Nat)
    (h : ctrlChars.contains c = false) : (ctrl (c :: rest) p).out = none := by
  unfold ctrl
  exact pmap_out_none _ (anyFilter_out_neg h _ _ _)

theorem string_lexer_out_fail {c : Char} (rest : List Char) (p : Nat)
    (h : (c == '"') = false) : (string_lexer (c :: rest) p).out = none := by
  unfold string_lexer
  exact pmap_out_none _ (thenIgnore_out_none _ (ignoreThen_out_none _
    (@anyFilter_out_neg (fun x => x == '"') c h _ _ _)))

theorem char_lexer_out_fail {c : Char} (rest : List Char) (p : Nat)
    (h : (c == '\'') = false) : (char_lexer (c :: rest) p).out = none := by
  unfold char_lexer
  exact pmap_out_none _ (thenIgnore_out_none _ (ignoreThen_out_none _
    (@anyFilter_out_neg (fun x => x == '\'') c h _ _ _)))

theorem num_literal_out_fail {c : Char} (rest : List Char) (p : Nat)
    (h : c.isDigit = false) : (num_literal (c :: rest) p).out = none := by
  have hz : (c == '0') = false := by
    cases hc : c == '0'
    · rfl
    · rw [eq_of_beq hc] at h
      exact absurd h (by decide)
  unfold num_literal text_int
  apply pmap_out_none
  apply thenP_out_none
  apply tryMapE_out_none
  rw [orP_out_none (toSlice_out_none (thenP_out_none _
    (@anyFilter_out_neg (fun x => x.isDigit && !(x == '0')) c (by simp [h]) _ _ _)))]
  exact toSlice_out_none (@anyFilter_out_neg (fun x => x == '0') c hz _ _ _)

/-! Full-result equations for every alternative of the dispatcher on an input
whose first character is a decimal digit, and the resulting reported error of
an overflowing run.  These settle which error `parse` reports. -/

/-- `num_literal` on a full digit run with no leading zero whose value fits a
signed 64-bit integer: one `IntLiteral` holding the value. -/
theorem num_literal_out_digits {c : Char} {rest : List Char} (p : Nat)
    (hdig : ∀ d ∈ c :: rest, d.isDigit = true)
    (hlead : c = '0' → rest = [])
    (hfit : digitsToNat (c :: rest) ≤ i64Max) :
    (num_literal (c :: rest) p).out =
      some (Token.IntLiteral (Int.ofNat (digitsToNat (c :: rest))), [],
        p + (c :: rest).length) := by
  have h5 : (text_int (c :: rest) p).out = some (c :: rest, [], p + 1 + rest.length) := by
    by_cases hc0 : c = '0'
    · subst hc0
      have hrnil := hlead rfl
      subst hrnil
      unfold text_int
      have hb1 : (toSlice (thenP
          (anyFilter (fun x => x.isDigit && !(x == '0')) "nonzero digit")
          (repeatedP (anyFilter Char.isDigit "digit"))) ['0'] p).out = none :=
        toSlice_out_none (thenP_out_none _
          (@anyFilter_out_neg (fun x => x.isDigit && !(x == '0')) '0' (by rfl) _ _ _))
      rw [orP_out_none hb1]
      have hj : ((justC '0') ['0'] p).out = some ('0', [], p + 1) := rfl
      rw [toSlice_out_some hj]
      have hs : p + 1 - p = 1 := by omega
      rw [hs]
      rfl
    · have hcd : c.isDigit = true := hdig c (by simp)
      have hc0b : (c == '0') = false := by
        cases hcb : c == '0'
        · rfl
        · exact absurd (eq_of_beq hcb) hc0
      have h1 : (anyFilter (fun x => x.isDigit && !(x == '0')) "nonzero digit"
          (c :: rest) p).out = some (c, rest, p + 1) :=
        anyFilter_out_pos (by simp [hcd, hc0b]) _ _ _
      have hrestd : ∀ d ∈ rest, d.isDigit = true := fun d hd => hdig d (by simp [hd])
      have h2 : (repeatedP (anyFilter Char.isDigit "digit") rest (p + 1)).out
          = some (rest, [], p + 1 + rest.length) := by
        rw [repeatedP_anyFilter_out, takeWhile_eq_self_of_all _ rest hrestd,
          dropWhile_eq_nil_of_all _ rest hrestd]
      have h3 : (thenP (anyFilter (fun x => x.isDigit && !(x == '0')) "nonzero digit")
          (repeatedP (anyFilter Char.isDigit "digit")) (c :: rest) p).out
          = some ((c, rest), [], p + 1 + rest.length) := by
        rw [thenP_out_some _ h1, h2]
        rfl
      have htake : (c :: rest).take (p + 1 + rest.length - p) = c :: rest := by
        have harith : p + 1 + rest.length - p = rest.length + 1 := by omega
        rw [harith, List.take_succ_cons, List.take_length]
      unfold text_int
      rw [orP_out_some (toSlice_out_some h3), htake]
  have h7 : (tryMapE text_int (fun cs _span =>
      match parse_i64 cs with
      | some v => Except.ok v
      | none => Except.error "Invalid integer") (c :: rest) p).out
      = some (Int.ofNat (digitsToNat (c :: rest)), [], p + 1 + rest.length) := by
    apply tryMapE_out_ok h5
    simp only [parse_i64, if_pos hfit]
  have h8 : (orNot (toSlice (ignoreThen (justC '.')
      (thenP (anyFilter Char.isDigit "digit") (repeatedP (anyFilter Char.isDigit "digit")))))
      [] (p + 1 + rest.length)).out = some (none, [], p + 1 + rest.length) :=
    orNot_out_none (toSlice_out_none (ignoreThen_out_none _ rfl))
  unfold num_literal
  rw [pmap_out, thenP_out_some _ h7, h8]
  have hl : p + 1 + rest.length = p + (c :: rest).length := by
    simp only [List.length_cons]
    omega
  rw [hl]
  rfl

/-- Assembling `lex_single` from a successful run of the alternative chain on
an input whose first character is not whitespace. -/
theorem lex_single_out_of_token_choice (name contents : String) (n p : Nat) (c : Char)
    (rest : List Char) (tok : Token)
    (hws : isWs c = false)
    (htok : (token_choice (lex_single name contents n) n (c :: rest) p).out
      = some (tok, [], p + (c :: rest).length)) :
    (lex_single name contents (n + 1) (c :: rest) p).out =
      some ((tok, ⟨p, p + (c :: rest).length, ⟨name, contents⟩⟩), [],
        p + (c :: rest).length) := by
  show (padded (mapWithSpan (token_choice (lex_single name contents n) n)
    (spanned_with name contents)) (c :: rest) p).out = _
  rw [padded_out]
  have hdw : (c :: rest).dropWhile isWs = c :: rest := by
    simp [List.dropWhile_cons, hws]
  have htw : (c :: rest).takeWhile isWs = [] := by
    simp [List.takeWhile_cons, hws]
  rw [hdw, htw]
  simp only [List.length_nil, Nat.add_zero]
  rw [mapWithSpan_out_some (spanned_with name contents) htok]
  rfl

/-- The dispatcher on a whole identifier-shaped input that is neither `true`
nor `false` (not even by prefix): one spanned keyword-or-identifier token. -/
theorem lex_single_ident_out (name contents : String) (n p : Nat) (c : Char)
    (rest : List Char)
    (hstart : isIdentStart c = true)
    (hrest : ∀ x ∈ rest, isIdentCont x = true)
    (htr : List.isPrefixOf "true".toList (c :: rest) = false)
    (hfa : List.isPrefixOf "false".toList (c :: rest) = false) :
    (lex_single name contents (n + 1) (c :: rest) p).out =
      some ((keywordTok (String.mk (c :: rest)),
        ⟨p, p + (c :: rest).length, ⟨name, contents⟩⟩), [], p + (c :: rest).length) := by
  have hall : ∀ d ∈ c :: rest, isIdentCont d = true := by
    intro d hd
    rcases List.mem_cons.mp hd with h | h
    · exact h ▸ isIdentCont_of_isIdentStart hstart
    · exact hrest d h
  have hws : ∀ d ∈ c :: rest, isWs d = false :=
    fun d hd => isWs_false_of_isIdentCont (hall d hd)
  have hq : ∀ d ∈ c :: rest, (d == '"') = false :=
    fun d hd => beq_false_of_pred isIdentCont (hall d hd) (by rfl)
  have A1 : (inline_go n (c :: rest) p).out = none := inline_go_out_no_ws n p hws
  have A2 : (fmt_string (lex_single name contents n) n (c :: rest) p).out = none :=
    fmt_string_out_no_quote p hq
  have A3 : (thin_arrow (c :: rest) p).out = none := by
    unfold thin_arrow
    exact pmap_out_none _ (justList_out_cons_ne _ _ _
      (beq_false_of_pred isIdentStart hstart (by rfl)))
  have A4 : (scope_res (c :: rest) p).out = none := by
    unfold scope_res
    exact pmap_out_none _ (justList_out_cons_ne _ _ _
      (beq_false_of_pred isIdentStart hstart (by rfl)))
  have A5 : (bool_lexer (c :: rest) p).out = none := bool_lexer_out_fail htr hfa
  have A6 : (equals (c :: rest) p).out = none := by
    unfold equals
    exact pmap_out_none _ (justList_out_cons_ne _ _ _
      (beq_false_of_pred isIdentStart hstart (by rfl)))
  have A7 := keyword_or_ident_out_ident p hstart hrest
  have h01 : (orP (inline_go n) (fmt_string (lex_single name contents n) n)
      (c :: rest) p).out = none := by
    rw [orP_out_none A1]
    exact A2
  have h02 : (orP (orP (inline_go n) (fmt_string (lex_single name contents n) n))
      thin_arrow (c :: rest) p).out = none := by
    rw [orP_out_none h01]
    exact A3
  have h03 : (orP (orP (orP (inline_go n) (fmt_string (lex_single name contents n) n))
      thin_arrow) scope_res (c :: rest) p).out = none := by
    rw [orP_out_none h02]
    exact A4
  have h04 : (orP (orP (orP (orP (inline_go n) (fmt_string (lex_single name contents n) n))
      thin_arrow) scope_res) bool_lexer (c :: rest) p).out = none := by
    rw [orP_out_none h03]
    exact A5
  have h05 : (orP (orP (orP (orP (orP (inline_go n)
      (fmt_string (lex_single name contents n) n))
      thin_arrow) scope_res) bool_lexer) equals (c :: rest) p).out = none := by
    rw [orP_out_none h04]
    exact A6
  have h06 : (orP (orP (orP (orP (orP (orP (inline_go n)
      (fmt_string (lex_single name contents n) n))
      thin_arrow) scope_res) bool_lexer) equals) keyword_or_ident (c :: rest) p).out
      = some (keywordTok (String.mk (c :: rest)), [], p + (c :: rest).length) := by
    rw [orP_out_none h05]
    exact A7
  have htok : (token_choice (lex_single name contents n) n (c :: rest) p).out
      = some (keywordTok (String.mk (c :: rest)), [], p + (c :: rest).length) := by
    unfold token_choice
    exact orP_out_some (orP_out_some (orP_out_some (orP_out_some h06)))
  exact lex_single_out_of_token_choice name contents n p c rest _
    (hws c (by simp)) htok

/-- The dispatcher on a whole digit run with no leading zero fitting i64: one
spanned `IntLiteral` token. -/
theorem lex_single_digits_out (name contents : String) (n p : Nat) (c : Char)
    (rest : List Char)
    (hdig : ∀ d ∈ c :: rest, d ∈ "0123456789".toList)
    (hlead : c = '0' → rest = [])
    (hfit : digitsToNat (c :: rest) ≤ i64Max) :
    (lex_single name contents (n + 1) (c :: rest) p).out =
      some ((Token.IntLiteral (Int.ofNat (digitsToNat (c :: rest))),
        ⟨p, p + (c :: rest).length, ⟨name, contents⟩⟩), [], p + (c :: rest).length) := by
  have bundle := fun d (hd : d ∈ c :: rest) => digit_char_facts (hdig d hd)
  have hws : ∀ d ∈ c :: rest, isWs d = false := fun d hd => (bundle d hd).2.2.1
  have hq : ∀ d ∈ c :: rest, (d == '"') = false :=
    fun d hd => (bundle d hd).2.2.2.2.2.2.2.2.2.2.1
  obtain ⟨hd1, hd2, hd3, hd4, hd5, hd6, hd7, hd8, hd9, hd10, hd11, hd12⟩ :=
    bundle c (by simp)
  have A1 : (inline_go n (c :: rest) p).out = none := inline_go_out_no_ws n p hws
  have A2 : (fmt_string (lex_single name contents n) n (c :: rest) p).out = none :=
    fmt_string_out_no_quote p hq
  have A3 : (thin_arrow (c :: rest) p).out = none := by
    unfold thin_arrow
    exact pmap_out_none _ (justList_out_cons_ne _ _ _ hd7)
  have A4 : (scope_res (c :: rest) p).out = none := by
    unfold scope_res
    exact pmap_out_none _ (justList_out_cons_ne _ _ _ hd8)
  have A5 : (bool_lexer (c :: rest) p).out = none :=
    bool_lexer_out_fail
      (prefix_false_of_head_ne _ _ (beq_symm_false hd9))
      (prefix_false_of_head_ne _ _ (beq_symm_false hd6))
  have A6 : (equals (c :: rest) p).out = none := by
    unfold equals
    exact pmap_out_none _ (justList_out_cons_ne _ _ _ hd10)
  have A7 : (keyword_or_ident (c :: rest) p).out = none :=
    keyword_or_ident_out_fail rest p hd2
  have A8 : (ctrl (c :: rest) p).out = none := ctrl_out_fail rest p hd4
  have A9 : (string_lexer (c :: rest) p).out = none := string_lexer_out_fail rest p hd11
  have A10 : (num_literal (c :: rest) p).out =
      some (Token.IntLiteral (Int.ofNat (digitsToNat (c :: rest))), [],
        p + (c :: rest).length) :=
    num_literal_out_digits p (fun d hd => (bundle d hd).1) hlead hfit
  have h01 : (orP (inline_go n) (fmt_string (lex_single name contents n) n)
      (c :: rest) p).out = none := by
    rw [orP_out_none A1]
    exact A2
  have h02 : (orP (orP (inline_go n) (fmt_string (lex_single name contents n) n))
      thin_arrow (c :: rest) p).out = none := by
    rw [orP_out_none h01]
    exact A3
  have h03 : (orP (orP (orP (inline_go n) (fmt_string (lex_single name contents n) n))
      thin_arrow) scope_res (c :: rest) p).out = none := by
    rw [orP_out_none h02]
    exact A4
  have h04 : (orP (orP (orP (orP (inline_go n) (fmt_string (lex_single name contents n) n))
      thin_arrow) scope_res) bool_lexer (c :: rest) p).out = none := by
    rw [orP_out_none h03]
    exact A5
  have h05 : (orP (orP (orP (orP (orP (inline_go n)
      (fmt_string (lex_single name contents n) n))
      thin_arrow) scope_res) bool_lexer) equals (c :: rest) p).out = none := by
    rw [orP_out_none h04]
    exact A6
  have h06 : (orP (orP (orP (orP (orP (orP (inline_go n)
      (fmt_string (lex_single name contents n) n))
      thin_arrow) scope_res) bool_lexer) equals) keyword_or_ident (c :: rest) p).out
      = none := by
    rw [orP_out_none h05]
    exact A7
  have h07 : (orP (orP (orP (orP (orP (orP (orP (inline_go n)
      (fmt_string (lex_single name contents n) n))
      thin_arrow) scope_res) bool_lexer) equals) keyword_or_ident) ctrl (c :: rest) p).out
      = none := by
    rw [orP_out_none h06]
    exact A8
  have h08 : (orP (orP (orP (orP (orP (orP (orP (orP (inline_go n)
      (fmt_string (lex_single name contents n) n))
      thin_arrow) scope_res) bool_lexer) equals) keyword_or_ident) ctrl)
      string_lexer (c :: rest) p).out = none := by
    rw [orP_out_none h07]
    exact A9
  have h09 : (orP (orP (orP (orP (orP (orP (orP (orP (orP (inline_go n)
      (fmt_string (lex_single name contents n) n))
      thin_arrow) scope_res) bool_lexer) equals) keyword_or_ident) ctrl)
      string_lexer) num_literal (c :: rest) p).out
      = some (Token.IntLiteral (Int.ofNat (digitsToNat (c :: rest))), [],
        p + (c :: rest).length) := by
    rw [orP_out_none h08]
    exact A10
  have htok : (token_choice (lex_single name contents n) n (c :: rest) p).out
      = some (Token.IntLiteral (Int.ofNat (digitsToNat (c :: rest))), [],
        p + (c :: rest).length) := by
    unfold token_choice
    exact orP_out_some h09
  exact lex_single_out_of_token_choice name contents n p c rest _ hd3 htok

/-! Consumption lemmas: every embedded parser moves the position forward and
keeps position-plus-remaining-length invariant, so the spans computed by
`map_with` stay inside the original input. -/

theorem tryMapE_out_err {α β : Type} {a : P α} {f : α → Nat × Nat → Except String β}
    {s : List Char} {p : Nat} {x : α} {s2 : List Char} {p2 : Nat} {msg : String}
    (h : (a s p).out = some (x, s2, p2)) (hf : f x (p, p2) = .error msg) :
    (tryMapE a f s p).out = none := by
  simp [tryMapE, h, hf]

theorem takeWhile_length_add_dropWhile_length (f : Char → Bool) (s : List Char) :
    (s.takeWhile f).length + (s.dropWhile f).length = s.length := by
  rw [← List.length_append, List.takeWhile_append_dropWhile]

theorem consumes_anyFilter (f : Char → Bool) (ex : String) :
    Consumes (anyFilter f ex) := by
  intro s p x s2 p2 h
  cases s with
  | nil => simp [anyFilter] at h
  | cons c rest =>
    cases hc : f c with
    | false => rw [anyFilter_out_neg hc] at h; exact absurd h (by simp)
    | true =>
      rw [anyFilter_out_pos hc] at h
      simp only [Option.some.injEq, Prod.mk.injEq] at h
      obtain ⟨-, rfl, rfl⟩ := h
      refine ⟨Nat.le_succ p, ?_⟩
      simp only [List.length_cons]
      omega

theorem consumes_justList (t : List Char) : Consumes (justList t) := by
  intro s p x s2 p2 h
  rw [justList_out] at h
  by_cases hp : t.isPrefixOf s
  · rw [if_pos hp] at h
    simp only [Option.some.injEq, Prod.mk.injEq] at h
    obtain ⟨-, rfl, rfl⟩ := h
    have hlen : t.length ≤ s.length := (List.isPrefixOf_iff_prefix.mp hp).length_le
    refine ⟨Nat.le_add_right _ _, ?_⟩
    rw [List.length_drop]
    omega
  · rw [if_neg hp] at h
    exact absurd h (by simp)

theorem consumes_pmap {α β : Type} {pa : P α} (f : α → β) (h : Consumes pa) :
    Consumes (pmap pa f) := by
  intro s p x s2 p2 hout
  rw [pmap_out] at hout
  cases hr : (pa s p).out with
  | none => rw [hr] at hout; exact absurd hout (by simp)
  | some v =>
    obtain ⟨a, s3, p3⟩ := v
    rw [hr] at hout
    simp only [Option.map_some', Option.some.injEq, Prod.mk.injEq] at hout
    obtain ⟨-, rfl, rfl⟩ := hout
    exact h s p a _ _ hr

theorem consumes_orP {α : Type} {pa pb : P α} (ha : Consumes pa) (hb : Consumes pb) :
    Consumes (orP pa pb) := by
  intro s p x s2 p2 hout
  cases hr : (pa s p).out with
  | some v =>
    rw [orP_out_some hr] at hout
    injection hout with h2
    rw [h2] at hr
    exact ha s p x s2 p2 hr
  | none =>
    rw [orP_out_none hr] at hout
    exact hb s p x s2 p2 hout

theorem consumes_thenP {α β : Type} {pa : P α} {pb : P β}
    (ha : Consumes pa) (hb : Consumes pb) : Consumes (thenP pa pb) := by
  intro s p x s2 p2 hout
  cases hr : (pa s p).out with
  | none => rw [thenP_out_none _ hr] at hout; exact absurd hout (by simp)
  | some v =>
    obtain ⟨a, s3, p3⟩ := v
    rw [thenP_out_some _ hr] at hout
    cases hs : (pb s3 p3).out with
    | none => rw [hs] at hout; exact absurd hout (by simp)
    | some w =>
      obtain ⟨bv, s4, p4⟩ := w
      rw [hs] at hout
      simp only [Option.map_some', Option.some.injEq, Prod.mk.injEq] at hout
      obtain ⟨-, rfl, rfl⟩ := hout
      obtain ⟨h1a, h1b⟩ := ha s p a s3 p3 hr
      obtain ⟨h2a, h2b⟩ := hb s3 p3 bv _ _ hs
      exact ⟨le_trans h1a h2a, by omega⟩

theorem consumes_ignoreThen {α β : Type} {pa : P α} {pb : P β}
    (ha : Consumes pa) (hb : Consumes pb) : Consumes (ignoreThen pa pb) :=
  consumes_pmap _ (consumes_thenP ha hb)

theorem consumes_thenIgnore {α β : Type} {pa : P α} {pb : P β}
    (ha : Consumes pa) (hb : Consumes pb) : Consumes (thenIgnore pa pb) :=
  consumes_pmap _ (consumes_thenP ha hb)

theorem consumes_rewindP {α : Type} (pa : P α) : Consumes (rewindP pa) := by
  intro s p x s2 p2 hout
  cases hr : (pa s p).out with
  | none => rw [rewindP_out_none hr] at hout; exact absurd hout (by simp)
  | some v =>
    obtain ⟨a, s3, p3⟩ := v
    rw [rewindP_out_some hr] at hout
    simp only [Option.some.injEq, Prod.mk.injEq] at hout
    obtain ⟨-, rfl, rfl⟩ := hout
    exact ⟨le_refl p, rfl⟩

theorem consumes_orNot {α : Type} {pa : P α} (h : Consumes pa) : Consumes (orNot pa) := by
  intro s p x s2 p2 hout
  cases hr : (pa s p).out with
  | none =>
    rw [orNot_out_none hr] at hout
    simp only [Option.some.injEq, Prod.mk.injEq] at hout
    obtain ⟨-, rfl, rfl⟩ := hout
    exact ⟨le_refl p, rfl⟩
  | some v =>
    obtain ⟨a, s3, p3⟩ := v
    rw [orNot_out_some hr] at hout
    simp only [Option.some.injEq, Prod.mk.injEq] at hout
    obtain ⟨-, rfl, rfl⟩ := hout
    exact h s p a _ _ hr

theorem consumes_toSlice {α : Type} {pa : P α} (h : Consumes pa) :
    Consumes (toSlice pa) := by
  intro s p x s2 p2 hout
  cases hr : (pa s p).out with
  | none => rw [toSlice_out_none hr] at hout; exact absurd hout (by simp)
  | some v =>
    obtain ⟨a, s3, p3⟩ := v
    rw [toSlice_out_some hr] at hout
    simp only [Option.some.injEq, Prod.mk.injEq] at hout
    obtain ⟨-, rfl, rfl⟩ := hout
    exact h s p a _ _ hr

theorem consumes_tryMapE {α β : Type} {pa : P α} (f : α → Nat × Nat → Except String β)
    (h : Consumes pa) : Consumes (tryMapE pa f) := by
  intro s p x s2 p2 hout
  cases hr : (pa s p).out with
  | none => rw [tryMapE_out_none _ hr] at hout; exact absurd hout (by simp)
  | some v =>
    obtain ⟨a, s3, p3⟩ := v
    cases hf : f a (p, p3) with
    | ok b =>
      rw [tryMapE_out_ok hr hf] at hout
      simp only [Option.some.injEq, Prod.mk.injEq] at hout
      obtain ⟨-, rfl, rfl⟩ := hout
      exact h s p a _ _ hr
    | error msg =>
      rw [tryMapE_out_err hr hf] at hout
      exact absurd hout (by simp)

theorem consumes_mapWithSpan {α β : Type} {pa : P α} (f : α → Nat → Nat → β)
    (h : Consumes pa) : Consumes (mapWithSpan pa f) := by
  intro s p x s2 p2 hout
  cases hr : (pa s p).out with
  | none => rw [mapWithSpan_out_none _ hr] at hout; exact absurd hout (by simp)
  | some v =>
    obtain ⟨a, s3, p3⟩ := v
    rw [mapWithSpan_out_some _ hr] at hout
    simp only [Option.some.injEq, Prod.mk.injEq] at hout
    obtain ⟨-, rfl, rfl⟩ := hout
    exact h s p a _ _ hr

theorem consumes_padded {α : Type} {pa : P α} (h : Consumes pa) :
    Consumes (padded pa) := by
  intro s p x s2 p2 hout
  rw [padded_out] at hout
  cases hr : (pa (s.dropWhile isWs) (p + (s.takeWhile isWs).length)).out with
  | none => rw [hr] at hout; exact absurd hout (by simp)
  | some v =>
    obtain ⟨a, s3, p3⟩ := v
    rw [hr] at hout
    simp only [Option.some.injEq, Prod.mk.injEq] at hout
    obtain ⟨-, rfl, rfl⟩ := hout
    obtain ⟨h1, h2⟩ := h _ _ _ _ _ hr
    have ht1 := takeWhile_length_add_dropWhile_length isWs s
    have ht2 := takeWhile_length_add_dropWhile_length isWs s3
    exact ⟨by omega, by omega⟩

theorem consumes_ws1 : Consumes whitespaceAtLeast1 := by
  intro s p x s2 p2 hout
  cases s with
  | nil => simp [whitespaceAtLeast1] at hout
  | cons c rest =>
    cases hc : isWs c with
    | false => simp [whitespaceAtLeast1, hc] at hout
    | true =>
      simp only [whitespaceAtLeast1, hc, if_true] at hout
      simp only [Option.some.injEq, Prod.mk.injEq] at hout
      obtain ⟨-, rfl, rfl⟩ := hout
      have := takeWhile_length_add_dropWhile_length isWs (c :: rest)
      exact ⟨Nat.le_add_right _ _, by omega⟩

theorem consumes_pfuel {α : Type} : Consumes (@pfuel α) := by
  intro s p x s2 p2 hout
  simp [pfuel] at hout

theorem consumes_repeatedAux {α : Type} {pa : P α} (h : Consumes pa) :
    ∀ (fuel : Nat) (s : List Char) (p : Nat) (acc : List α) (alt : Option LexErr)
      (l : List α) (s2 : List Char) (p2 : Nat),
      (repeatedAux pa fuel s p acc alt).out = some (l, s2, p2) →
      p ≤ p2 ∧ p2 + s2.length = p + s.length := by
  intro fuel
  induction fuel with
  | zero =>
    intro s p acc alt l s2 p2 hout
    simp only [repeatedAux, Option.some.injEq, Prod.mk.injEq] at hout
    obtain ⟨-, rfl, rfl⟩ := hout
    exact ⟨le_refl p, rfl⟩
  | succ n ih =>
    intro s p acc alt l s2 p2 hout
    cases hr : (pa s p).out with
    | none =>
      simp only [repeatedAux, hr] at hout
      simp only [Option.some.injEq, Prod.mk.injEq] at hout
      obtain ⟨-, rfl, rfl⟩ := hout
      exact ⟨le_refl p, rfl⟩
    | some v =>
      obtain ⟨a, s3, p3⟩ := v
      simp only [repeatedAux, hr] at hout
      obtain ⟨h1, h2⟩ := h s p a s3 p3 hr
      obtain ⟨h3, h4⟩ := ih s3 p3 (a :: acc) _ l s2 p2 hout
      exact ⟨le_trans h1 h3, by omega⟩

theorem consumes_repeatedP {α : Type} {pa : P α} (h : Consumes pa) :
    Consumes (repeatedP pa) := by
  intro s p x s2 p2 hout
  exact consumes_repeatedAux h (s.length + 1) s p [] none x s2 p2 hout

theorem consumes_text_ident : Consumes text_ident :=
  consumes_toSlice (consumes_thenP (consumes_anyFilter _ _)
    (consumes_repeatedP (consumes_anyFilter _ _)))

theorem consumes_keyword_or_ident : Consumes keyword_or_ident :=
  consumes_pmap _ consumes_text_ident

theorem consumes_ctrl : Consumes ctrl := consumes_pmap _ (consumes_anyFilter _ _)

theorem consumes_string_lexer : Consumes string_lexer :=
  consumes_pmap _ (consumes_thenIgnore
    (consumes_ignoreThen (consumes_anyFilter _ _)
      (consumes_repeatedP (consumes_orP (consumes_anyFilter _ _)
        (consumes_orP (consumes_pmap _ (consumes_justList _))
          (consumes_orP (consumes_pmap _ (consumes_justList _))
            (consumes_orP (consumes_pmap _ (consumes_justList _))
              (consumes_pmap _ (consumes_justList _))))))))
    (consumes_anyFilter _ _))

theorem consumes_bool_lexer : Consumes bool_lexer :=
  consumes_orP (consumes_pmap _ (consumes_justList _))
    (consumes_pmap _ (consumes_justList _))

theorem consumes_char_lexer : Consumes char_lexer :=
  consumes_pmap _ (consumes_thenIgnore
    (consumes_ignoreThen (consumes_anyFilter _ _)
      (consumes_orP (consumes_anyFilter _ _)
        (consumes_orP (consumes_pmap _ (consumes_justList _))
          (consumes_orP (consumes_pmap _ (consumes_justList _))
            (consumes_orP (consumes_pmap _ (consumes_justList _))
              (consumes_pmap _ (consumes_justList _)))))))
    (consumes_anyFilter _ _))

theorem consumes_text_int : Consumes text_int :=
  consumes_orP
    (consumes_toSlice (consumes_thenP (consumes_anyFilter _ _)
      (consumes_repeatedP (consumes_anyFilter _ _))))
    (consumes_toSlice (consumes_anyFilter _ _))

theorem consumes_num_literal : Consumes num_literal :=
  consumes_pmap _ (consumes_thenP (consumes_tryMapE _ consumes_text_int)
    (consumes_orNot (consumes_toSlice (consumes_ignoreThen (consumes_anyFilter _ _)
      (consumes_thenP (consumes_anyFilter _ _)
        (consumes_repeatedP (consumes_anyFilter _ _)))))))

theorem consumes_go_text : ∀ fuel, Consumes (go_text fuel) := by
  intro fuel
  induction fuel with
  | zero => exact consumes_pfuel
  | succ n ih =>
    exact consumes_pmap _ (consumes_thenIgnore
      (consumes_ignoreThen (consumes_justList _)
        (consumes_repeatedP (consumes_orP
          (consumes_ignoreThen (consumes_rewindP _) ih)
          (consumes_pmap _ (consumes_anyFilter _ _)))))
      (consumes_justList _))

theorem consumes_inline_go (fuel : Nat) : Consumes (inline_go fuel) :=
  consumes_pmap _ (consumes_ignoreThen (consumes_justList _)
    (consumes_ignoreThen consumes_ws1
      (consumes_ignoreThen (consumes_rewindP _) (consumes_go_text fuel))))

theorem consumes_lex_fstring {L : P (Token × SS)} (hL : Consumes L) :
    ∀ fuel, Consumes (lex_fstring_tokens L fuel) := by
  intro fuel
  induction fuel with
  | zero => exact consumes_pfuel
  | succ n ih =>
    exact consumes_pmap _ (consumes_thenIgnore
      (consumes_ignoreThen (consumes_justList _)
        (consumes_repeatedP (consumes_orP
          (consumes_ignoreThen (consumes_rewindP _) ih)
          (consumes_pmap _ (consumes_ignoreThen (consumes_rewindP _) hL)))))
      (consumes_justList _))

theorem consumes_fmt_string {L : P (Token × SS)} (hL : Consumes L) (fuel : Nat) :
    Consumes (fmt_string L fuel) :=
  consumes_pmap _ (consumes_thenIgnore
    (consumes_ignoreThen (consumes_justList _)
      (consumes_ignoreThen (consumes_anyFilter _ _)
        (consumes_repeatedP (consumes_orP
          (consumes_pmap _ (consumes_ignoreThen (consumes_rewindP _)
            (consumes_lex_fstring hL fuel)))
          (consumes_pmap _ (consumes_orP (consumes_anyFilter _ _)
            (consumes_orP (consumes_pmap _ (consumes_justList _))
              (consumes_orP (consumes_pmap _ (consumes_justList _))
                (consumes_orP (consumes_pmap _ (consumes_justList _))
                  (consumes_orP (consumes_pmap _ (consumes_justList _))
                    (consumes_pmap _ (consumes_justList _))))))))))))
    (consumes_anyFilter _ _))

theorem consumes_token_choice {L : P (Token × SS)} (hL : Consumes L) (fuel : Nat) :
    Consumes (token_choice L fuel) :=
  consumes_orP (consumes_orP (consumes_orP (consumes_orP (consumes_orP (consumes_orP
    (consumes_orP (consumes_orP (consumes_orP (consumes_orP
    (consumes_inline_go fuel)
    (consumes_fmt_string hL fuel))
    (consumes_pmap _ (consumes_justList _)))
    (consumes_pmap _ (consumes_justList _)))
    consumes_bool_lexer)
    (consumes_pmap _ (consumes_justList _)))
    consumes_keyword_or_ident)
    consumes_ctrl)
    consumes_string_lexer)
    consumes_num_literal)
    consumes_char_lexer

theorem consumes_lex_single (name contents : String) :
    ∀ fuel, Consumes (lex_single name contents fuel) := by
  intro fuel
  induction fuel with
  | zero => exact consumes_pfuel
  | succ n ih =>
    exact consumes_padded (consumes_mapWithSpan _ (consumes_token_choice ih n))

/-! Span-wellformedness lemmas: every token any run of the dispatcher
produces, at a call site consistent with the original file, satisfies
`tokWFb`, recursively through format-string content. -/

theorem orP_out_cases {α : Type} {a b : P α} {s : List Char} {p : Nat}
    {o : α × List Char × Nat} (h : (orP a b s p).out = some o) :
    (a s p).out = some o ∨ ((a s p).out = none ∧ (b s p).out = some o) := by
  cases hr : (a s p).out with
  | some v =>
    rw [orP_out_some hr] at h
    exact Or.inl h
  | none =>
    rw [orP_out_none hr] at h
    exact Or.inr ⟨rfl, h⟩

theorem pmap_out_shape {α β : Type} {pa : P α} {f : α → β} {s : List Char} {p : Nat}
    {b : β} {s2 : List Char} {p2 : Nat} (h : (pmap pa f s p).out = some (b, s2, p2)) :
    ∃ a, b = f a := by
  rw [pmap_out] at h
  cases hr : (pa s p).out with
  | none => rw [hr] at h; exact absurd h (by simp)
  | some v =>
    rw [hr] at h
    simp only [Option.map_some', Option.some.injEq, Prod.mk.injEq] at h
    exact ⟨v.1, h.1.symm⟩

theorem innerWFb_nonfmt (ctx : Context) (N : Nat) (t : Token)
    (h : ∀ cs, t ≠ Token.FormatStringLiteral cs) : innerWFb ctx N t = true := by
  cases t with
  | FormatStringLiteral cs => exact absurd rfl (h cs)
  | _ => simp [innerWFb]

theorem innerWFb_fmt (ctx : Context) (N : Nat) (cs : List FmtStringContents) :
    innerWFb ctx N (Token.FormatStringLiteral cs) = contentsWFb ctx N cs := by
  simp [innerWFb]

theorem innerWFb_keywordTok (ctx : Context) (N : Nat) (str : String) :
    innerWFb ctx N (keywordTok str) = true := by
  unfold keywordTok
  split <;> simp [innerWFb]

theorem tokWFb_boundary (ctx : Context) (N : Nat) (t : Token)
    (h : isBoundaryBrace t = true) : tokWFb ctx N (t, empty_range) = true := by
  have hin : innerWFb ctx N t = true := by
    apply innerWFb_nonfmt
    intro cs hcs
    rw [hcs] at h
    simp [isBoundaryBrace] at h
  simp [tokWFb, h, hin]

theorem tokWFb_valid (ctx : Context) (N : Nat) (t : Token) (sp : SS)
    (hsp : spanValidb ctx N sp = true) (hin : innerWFb ctx N t = true) :
    tokWFb ctx N (t, sp) = true := by
  simp [tokWFb, hsp, hin]

theorem toksWFb_of_forall (ctx : Context) (N : Nat) :
    ∀ l : List (Token × SS), (∀ ts ∈ l, tokWFb ctx N ts = true) →
      toksWFb ctx N l = true := by
  intro l
  induction l with
  | nil => intro _; simp [toksWFb]
  | cons t r ih =>
    intro h
    simp only [toksWFb, Bool.and_eq_true]
    exact ⟨h t (by simp), ih (fun x hx => h x (by simp [hx]))⟩

theorem contentsWFb_of_forall (ctx : Context) (N : Nat) :
    ∀ cs : List FmtStringContents,
      (∀ ts, FmtStringContents.Tokens ts ∈ cs → toksWFb ctx N ts = true) →
      contentsWFb ctx N cs = true := by
  intro cs
  induction cs with
  | nil => intro _; simp [contentsWFb]
  | cons fc r ih =>
    intro h
    cases fc with
    | Char c =>
      simp only [contentsWFb]
      exact ih (fun ts hts => h ts (by simp [hts]))
    | Tokens ts =>
      simp only [contentsWFb, Bool.and_eq_true]
      exact ⟨h ts (by simp), ih (fun ts2 hts => h ts2 (by simp [hts]))⟩

theorem repeatedAux_forall {α : Type} {pa : P α} {Q : α → Prop} {N : Nat}
    (hcons : Consumes pa)
    (hQ : ∀ s p a s2 p2, p + s.length = N → (pa s p).out = some (a, s2, p2) → Q a) :
    ∀ (fuel : Nat) (s : List Char) (p : Nat) (acc : List α) (alt : Option LexErr)
      (l : List α) (s2 : List Char) (p2 : Nat),
      p + s.length = N → (∀ a ∈ acc, Q a) →
      (repeatedAux pa fuel s p acc alt).out = some (l, s2, p2) →
      ∀ a ∈ l, Q a := by
  intro fuel
  induction fuel with
  | zero =>
    intro s p acc alt l s2 p2 hN hacc hout
    simp only [repeatedAux, Option.some.injEq, Prod.mk.injEq] at hout
    obtain ⟨rfl, -, -⟩ := hout
    intro a ha
    exact hacc a (List.mem_reverse.mp ha)
  | succ n ih =>
    intro s p acc alt l s2 p2 hN hacc hout
    cases hr : (pa s p).out with
    | none =>
      simp only [repeatedAux, hr] at hout
      simp only [Option.some.injEq, Prod.mk.injEq] at hout
      obtain ⟨rfl, -, -⟩ := hout
      intro a ha
      exact hacc a (List.mem_reverse.mp ha)
    | some v =>
      obtain ⟨a0, s3, p3⟩ := v
      simp only [repeatedAux, hr] at hout
      obtain ⟨hc1, hc2⟩ := hcons s p a0 s3 p3 hr
      have hN3 : p3 + s3.length = N := by omega
      refine ih s3 p3 (a0 :: acc) _ l s2 p2 hN3 ?_ hout
      intro a ha
      rcases List.mem_cons.mp ha with rfl | ha2
      · exact hQ s p a s3 p3 hN hr
      · exact hacc a ha2

theorem repeatedP_forall {α : Type} {pa : P α} {Q : α → Prop} {N : Nat}
    (hcons : Consumes pa)
    (hQ : ∀ s p a s2 p2, p + s.length = N → (pa s p).out = some (a, s2, p2) → Q a)
    {s : List Char} {p : Nat} {l : List α} {s2 : List Char} {p2 : Nat}
    (hN : p + s.length = N) (hout : (repeatedP pa s p).out = some (l, s2, p2)) :
    ∀ a ∈ l, Q a :=
  repeatedAux_forall hcons hQ (s.length + 1) s p [] none l s2 p2 hN (by simp) hout

theorem bracketed_repeated_out {α β : Type} (pre : P Unit) (body : P α) (post : P Unit)
    {g : List α → β} {s : List Char} {p : Nat} {b : β} {s2 : List Char} {p2 : Nat}
    (hout : (pmap (thenIgnore (ignoreThen pre (repeatedP body)) post) g s p).out
      = some (b, s2, p2)) :
    ∃ x s6 p6 s7 p7, (pre s p).out = some ((), s6, p6)
      ∧ (repeatedP body s6 p6).out = some (x, s7, p7) ∧ b = g x := by
  rw [pmap_out] at hout
  cases hJ1 : (pre s p).out with
  | none =>
    rw [thenIgnore_out_none _ (ignoreThen_out_none _ hJ1)] at hout
    exact absurd hout (by simp)
  | some v1 =>
    obtain ⟨u1, s6, p6⟩ := v1
    cases hR : (repeatedP body s6 p6).out with
    | none =>
      rw [thenIgnore_out_none _ ((ignoreThen_out_some _ hJ1).trans hR)] at hout
      exact absurd hout (by simp)
    | some v2 =>
      obtain ⟨x, s7, p7⟩ := v2
      rw [thenIgnore_out_some _ ((ignoreThen_out_some _ hJ1).trans hR)] at hout
      cases hJ2 : (post s7 p7).out with
      | none => rw [hJ2] at hout; exact absurd hout (by simp)
      | some v3 =>
        obtain ⟨u2, s8, p8⟩ := v3
        rw [hJ2] at hout
        simp only [Option.map_some', Option.some.injEq, Prod.mk.injEq] at hout
        obtain ⟨hb, -, -⟩ := hout
        exact ⟨x, s6, p6, s7, p7, rfl, hR, hb.symm⟩

theorem bracketed_repeated2_out {α β γ δ : Type} (pre1 : P Unit) (pre2 : P γ)
    (body : P α) (post : P δ)
    {g : List α → β} {s : List Char} {p : Nat} {b : β} {s2 : List Char} {p2 : Nat}
    (hout : (pmap (thenIgnore (ignoreThen pre1 (ignoreThen pre2 (repeatedP body)))
      post) g s p).out = some (b, s2, p2)) :
    ∃ s6 p6 u2 s6' p6' x s7 p7, (pre1 s p).out = some ((), s6, p6)
      ∧ (pre2 s6 p6).out = some (u2, s6', p6')
      ∧ (repeatedP body s6' p6').out = some (x, s7, p7) ∧ b = g x := by
  rw [pmap_out] at hout
  cases hJ1 : (pre1 s p).out with
  | none =>
    rw [thenIgnore_out_none _ (ignoreThen_out_none _ hJ1)] at hout
    exact absurd hout (by simp)
  | some v1 =>
    obtain ⟨u1, s6, p6⟩ := v1
    cases hJ2 : (pre2 s6 p6).out with
    | none =>
      rw [thenIgnore_out_none _
        ((ignoreThen_out_some _ hJ1).trans (ignoreThen_out_none _ hJ2))] at hout
      exact absurd hout (by simp)
    | some v2 =>
      obtain ⟨u2, s6', p6'⟩ := v2
      cases hR : (repeatedP body s6' p6').out with
      | none =>
        rw [thenIgnore_out_none _ ((ignoreThen_out_some _ hJ1).trans
          ((ignoreThen_out_some _ hJ2).trans hR))] at hout
        exact absurd hout (by simp)
      | some v3 =>
        obtain ⟨x, s7, p7⟩ := v3
        rw [thenIgnore_out_some _ ((ignoreThen_out_some _ hJ1).trans
          ((ignoreThen_out_some _ hJ2).trans hR))] at hout
        cases hJ3 : (post s7 p7).out with
        | none => rw [hJ3] at hout; exact absurd hout (by simp)
        | some v4 =>
          obtain ⟨u3, s8, p8⟩ := v4
          rw [hJ3] at hout
          simp only [Option.map_some', Option.some.injEq, Prod.mk.injEq] at hout
          obtain ⟨hb, -, -⟩ := hout
          exact ⟨s6, p6, u2, s6', p6', x, s7, p7, rfl, hJ2, hR, hb.symm⟩

/-- Every token list `lex_fstring_tokens` produces starts with the synthesized
boundary `\x7b` token and ends with the synthesized boundary `\x7d` token,
both carrying the sentinel `empty_range`. -/
theorem lex_fstring_bracketed {L : P (Token × SS)} {fuel : Nat} {s : List Char}
    {q : Nat} {ts : List (Token × SS)} {s2 : List Char} {p2 : Nat}
    (hout : (lex_fstring_tokens L fuel s q).out = some (ts, s2, p2)) :
    ts.head? = some (Token.ControlChar '\x7b', empty_range)
    ∧ ts.getLast? = some (Token.ControlChar '\x7d', empty_range) := by
  cases fuel with
  | zero => simp [lex_fstring_tokens, pfuel] at hout
  | succ n =>
    obtain ⟨x, hx⟩ := pmap_out_shape hout
    subst hx
    constructor
    · rfl
    · show (((Token.ControlChar '\x7b', empty_range) :: x.flatten)
        ++ [(Token.ControlChar '\x7d', empty_range)]).getLast? = _
      exact List.getLast?_concat _

/-- Every spanned token in a token list produced by `lex_fstring_tokens` is
span-wellformed, provided the recursive dispatcher handle only produces
span-wellformed tokens. -/
theorem WF_lex_fstring (ctx : Context) (N : Nat) {L : P (Token × SS)}
    (hL : Consumes L) (hLWF : ProducesWF ctx N L) :
    ∀ fuel, ProducesWFList ctx N (lex_fstring_tokens L fuel) := by
  intro fuel
  induction fuel with
  | zero =>
    intro s p l s2 p2 hN hout
    simp [lex_fstring_tokens, pfuel] at hout
  | succ n ih =>
    intro s p l s2 p2 hN hout
    obtain ⟨x, s6, p6, s7, p7, hpre, hrep, rfl⟩ :=
      bracketed_repeated_out (justS "\x7b")
        (orP (ignoreThen (rewindP (justS "\x7b")) (lex_fstring_tokens L n))
          (pmap (ignoreThen (rewindP (anyFilter
            (fun c => !(c == '\x7b') && !(c == '\x7d')) "section character")) L)
            (fun y => [y])))
        (justS "\x7d") hout
    have hN6 : p6 + s6.length = N := by
      obtain ⟨-, he⟩ := consumes_justList _ s p _ s6 p6 hpre
      omega
    have hcons2 : Consumes (orP (ignoreThen (rewindP (justS "\x7b"))
        (lex_fstring_tokens L n))
        (pmap (ignoreThen (rewindP (anyFilter
          (fun c => !(c == '\x7b') && !(c == '\x7d')) "section character")) L)
          (fun y => [y]))) :=
      consumes_orP (consumes_ignoreThen (consumes_rewindP _) (consumes_lex_fstring hL n))
        (consumes_pmap _ (consumes_ignoreThen (consumes_rewindP _) hL))
    have hQ : ∀ sb pb lb sb2 pb2, pb + sb.length = N →
        ((orP (ignoreThen (rewindP (justS "\x7b")) (lex_fstring_tokens L n))
          (pmap (ignoreThen (rewindP (anyFilter
            (fun c => !(c == '\x7b') && !(c == '\x7d')) "section character")) L)
            (fun y => [y]))) sb pb).out = some (lb, sb2, pb2) →
        ∀ ts ∈ lb, tokWFb ctx N ts = true := by
      intro sb pb lb sb2 pb2 hNb hb
      rcases orP_out_cases hb with hb1 | ⟨-, hb2⟩
      · cases hj : (justS "\x7b" sb pb).out with
        | none =>
          rw [ignoreThen_out_none _ (rewindP_out_none hj)] at hb1
          exact absurd hb1 (by simp)
        | some w =>
          obtain ⟨u, sx, px⟩ := w
          rw [ignoreThen_out_some _ (rewindP_out_some hj)] at hb1
          exact ih sb pb lb sb2 pb2 hNb hb1
      · cases ha : (anyFilter (fun c => !(c == '\x7b') && !(c == '\x7d'))
            "section character" sb pb).out with
        | none =>
          rw [pmap_out, ignoreThen_out_none _ (rewindP_out_none ha)] at hb2
          exact absurd hb2 (by simp)
        | some w =>
          obtain ⟨u, sx, px⟩ := w
          rw [pmap_out, ignoreThen_out_some _ (rewindP_out_some ha)] at hb2
          cases hLo : (L sb pb).out with
          | none => rw [hLo] at hb2; exact absurd hb2 (by simp)
          | some wv =>
            obtain ⟨⟨t, sp⟩, sL, pL⟩ := wv
            rw [hLo] at hb2
            simp only [Option.map_some', Option.some.injEq, Prod.mk.injEq] at hb2
            obtain ⟨rfl, -, -⟩ := hb2
            intro ts hts
            rw [List.mem_singleton.mp hts]
            exact hLWF sb pb t sp sL pL hNb hLo
    have hall := repeatedP_forall hcons2 hQ hN6 hrep
    intro ts hts
    rcases List.mem_append.mp hts with h1 | h1
    · rcases List.mem_cons.mp h1 with rfl | h2
      · exact tokWFb_boundary ctx N _ (by decide)
      · rcases List.mem_flatten.mp h2 with ⟨lb, hlb, htslb⟩
        exact hall lb hlb ts htslb
    · rw [List.mem_singleton.mp h1]
      exact tokWFb_boundary ctx N _ (by decide)

/-- Every raw token the dispatcher chain produces has span-wellformed inner
content (only `fmt_string` produces inner spanned tokens). -/
theorem WF_token_choice (ctx : Context) (N : Nat) {L : P (Token × SS)}
    (hL : Consumes L) (hLWF : ProducesWF ctx N L) (fuel : Nat) :
    ProducesInner ctx N (token_choice L fuel) := by
  intro s p t s2 p2 hN hout
  unfold token_choice at hout
  rcases orP_out_cases hout with h | ⟨-, hx⟩
  swap
  · obtain ⟨a, rfl⟩ := pmap_out_shape hx
    simp [innerWFb]
  rcases orP_out_cases h with h | ⟨-, hx⟩
  swap
  · obtain ⟨a, rfl⟩ := pmap_out_shape hx
    obtain ⟨v, fro⟩ := a
    cases fro <;> simp [innerWFb]
  rcases orP_out_cases h with h | ⟨-, hx⟩
  swap
  · obtain ⟨a, rfl⟩ := pmap_out_shape hx
    simp [innerWFb]
  rcases orP_out_cases h with h | ⟨-, hx⟩
  swap
  · obtain ⟨a, rfl⟩ := pmap_out_shape hx
    simp [innerWFb]
  rcases orP_out_cases h with h | ⟨-, hx⟩
  swap
  · obtain ⟨a, rfl⟩ := pmap_out_shape hx
    exact innerWFb_keywordTok ctx N _
  rcases orP_out_cases h with h | ⟨-, hx⟩
  swap
  · obtain ⟨a, rfl⟩ := pmap_out_shape hx
    simp [innerWFb]
  rcases orP_out_cases h with h | ⟨-, hx⟩
  swap
  · rcases orP_out_cases hx with hxa | ⟨-, hxb⟩
    · obtain ⟨a, rfl⟩ := pmap_out_shape hxa
      simp [innerWFb]
    · obtain ⟨a, rfl⟩ := pmap_out_shape hxb
      simp [innerWFb]
  rcases orP_out_cases h with h | ⟨-, hx⟩
  swap
  · obtain ⟨a, rfl⟩ := pmap_out_shape hx
    simp [innerWFb]
  rcases orP_out_cases h with h | ⟨-, hx⟩
  swap
  · obtain ⟨a, rfl⟩ := pmap_out_shape hx
    simp [innerWFb]
  rcases orP_out_cases h with hig | ⟨-, hfs⟩
  · obtain ⟨a, rfl⟩ := pmap_out_shape hig
    simp [innerWFb]
  · obtain ⟨s6, p6, u2, s6', p6', cs, s7, p7, hf, hq, hrep, rfl⟩ :=
      bracketed_repeated2_out (justS "f") (justC '"')
        (orP
          (pmap (ignoreThen (rewindP (justS "\x7b")) (lex_fstring_tokens L fuel))
            (fun e => FmtStringContents.Tokens ((e.drop 1).dropLast)))
          (pmap
            (orP (noneOf ['\\', '\n', '\t', '"'])
              (orP (pmap (justS "\\\\") (fun _ => '\\'))
                (orP (pmap (justS "\\\x7b") (fun _ => '\x7b'))
                  (orP (pmap (justS "\\n") (fun _ => '\n'))
                    (orP (pmap (justS "\\t") (fun _ => '\t'))
                      (pmap (justS "\\\"") (fun _ => '"')))))))
            FmtStringContents.Char))
        (justC '"') hfs
    rw [innerWFb_fmt]
    have hN6 : p6 + s6.length = N := by
      obtain ⟨-, he⟩ := consumes_justList _ s p _ s6 p6 hf
      omega
    have hN6' : p6' + s6'.length = N := by
      obtain ⟨-, he⟩ := consumes_anyFilter _ _ s6 p6 _ s6' p6' hq
      omega
    have hQ : ∀ sb pb fc sb2 pb2, pb + sb.length = N →
        ((orP
          (pmap (ignoreThen (rewindP (justS "\x7b")) (lex_fstring_tokens L fuel))
            (fun e => FmtStringContents.Tokens ((e.drop 1).dropLast)))
          (pmap
            (orP (noneOf ['\\', '\n', '\t', '"'])
              (orP (pmap (justS "\\\\") (fun _ => '\\'))
                (orP (pmap (justS "\\\x7b") (fun _ => '\x7b'))
                  (orP (pmap (justS "\\n") (fun _ => '\n'))
                    (orP (pmap (justS "\\t") (fun _ => '\t'))
                      (pmap (justS "\\\"") (fun _ => '"')))))))
            FmtStringContents.Char)) sb pb).out = some (fc, sb2, pb2) →
        ∀ ts', fc = FmtStringContents.Tokens ts' → toksWFb ctx N ts' = true := by
      intro sb pb fc sb2 pb2 hNb hb
      rcases orP_out_cases hb with hb1 | ⟨-, hb2⟩
      · cases hj : (justS "\x7b" sb pb).out with
        | none =>
          rw [pmap_out, ignoreThen_out_none _ (rewindP_out_none hj)] at hb1
          exact absurd hb1 (by simp)
        | some w =>
          obtain ⟨u, sx, px⟩ := w
          rw [pmap_out, ignoreThen_out_some _ (rewindP_out_some hj)] at hb1
          cases hLf : (lex_fstring_tokens L fuel sb pb).out with
          | none => rw [hLf] at hb1; exact absurd hb1 (by simp)
          | some wv =>
            obtain ⟨e, se, pe⟩ := wv
            rw [hLf] at hb1
            simp only [Option.map_some', Option.some.injEq, Prod.mk.injEq] at hb1
            obtain ⟨rfl, -, -⟩ := hb1
            intro ts' hts'
            injection hts' with h2
            rw [← h2]
            apply toksWFb_of_forall
            intro ts0 hts0
            have hmem : ts0 ∈ e := List.drop_subset _ _ (List.dropLast_subset _ hts0)
            exact WF_lex_fstring ctx N hL hLWF fuel sb pb e se pe hNb hLf ts0 hmem
      · obtain ⟨a, rfl⟩ := pmap_out_shape hb2
        intro ts' hts'
        exact absurd hts' (by simp)
    have hall := repeatedP_forall
      (consumes_orP
        (consumes_pmap _ (consumes_ignoreThen (consumes_rewindP _)
          (consumes_lex_fstring hL fuel)))
        (consumes_pmap _ (consumes_orP (consumes_anyFilter _ _)
          (consumes_orP (consumes_pmap _ (consumes_justList _))
            (consumes_orP (consumes_pmap _ (consumes_justList _))
              (consumes_orP (consumes_pmap _ (consumes_justList _))
                (consumes_orP (consumes_pmap _ (consumes_justList _))
                  (consumes_pmap _ (consumes_justList _)))))))))
      hQ hN6' hrep
    apply contentsWFb_of_forall
    intro ts hts
    exact hall _ hts ts rfl

/-- Every spanned token `lex_single` produces, at a call site consistent with
the file, is span-wellformed: its own span is the consumed span computed by
`map_with` in file coordinates, and its inner content is wellformed. -/
theorem WF_lex_single (name contents : String) :
    ∀ fuel, ProducesWF ⟨name, contents⟩ contents.toList.length
      (lex_single name contents fuel) := by
  intro fuel
  induction fuel with
  | zero =>
    intro s p t sp s2 p2 hN hout
    simp [lex_single, pfuel] at hout
  | succ n ih =>
    intro s p t sp s2 p2 hN hout
    have hconsL : Consumes (lex_single name contents n) :=
      consumes_lex_single name contents n
    rw [show lex_single name contents (n + 1) = padded (mapWithSpan
        (token_choice (lex_single name contents n) n)
        (spanned_with name contents)) from rfl,
      padded_out] at hout
    cases htc : (token_choice (lex_single name contents n) n (s.dropWhile isWs)
        (p + (s.takeWhile isWs).length)).out with
    | none =>
      rw [mapWithSpan_out_none _ htc] at hout
      exact absurd hout (by simp)
    | some v =>
      obtain ⟨t1, s3, p3⟩ := v
      simp only [mapWithSpan_out_some _ htc] at hout
      simp only [spanned_with, Option.some.injEq, Prod.mk.injEq] at hout
      obtain ⟨⟨rfl, rfl⟩, -, -⟩ := hout
      obtain ⟨hle, hsum⟩ := consumes_token_choice hconsL n _ _ _ _ _ htc
      have harith := takeWhile_length_add_dropWhile_length isWs s
      have hN' : p + (s.takeWhile isWs).length + (s.dropWhile isWs).length
          = contents.toList.length := by omega
      apply tokWFb_valid
      · have hp3 : p3 ≤ contents.toList.length := by omega
        have hlen : contents.toList.length = contents.length := rfl
        simp [spanValidb, hle]
        omega
      · exact WF_token_choice ⟨name, contents⟩ contents.toList.length hconsL ih n
          _ _ t1 _ _ hN' htc

/-- Inversion of chumsky's `parse()`: success means the parser consumed the
whole input from offset 0. -/
theorem parseStr_ok {α : Type} {pa : P α} {input : String} {a : α}
    (h : parseStr pa input = Except.ok a) :
    ∃ p2, (pa input.toList 0).out = some (a, [], p2) := by
  simp only [parseStr] at h
  cases hr : (pa input.toList 0).out with
  | none =>
    simp only [hr] at h
    exact absurd h (by simp)
  | some v =>
    obtain ⟨b, sr, pr⟩ := v
    cases sr with
    | nil =>
      simp only [hr, Except.ok.injEq] at h
      exact ⟨pr, by rw [h]⟩
    | cons c r2 =>
      simp only [hr] at h
      exact absurd h (by simp)

/-! Concrete lexing theorems for the claims that speak about specific inputs.
All of them evaluate the production pipeline `lexFile` on the literal input. -/

/-- C1: lexing `f"{{{1}}}"` yields exactly one `FormatStringLiteral` whose
single content item is `Tokens([ControlChar('{'), ControlChar('{'),
IntLiteral(1), ControlChar('}'), ControlChar('}')])`, and lexing
`f"FMT {var}"` yields one `FormatStringLiteral` with content
`[Char 'F', Char 'M', Char 'T', Char ' ', Tokens([Ident "var"])]`; the
outermost brace pair of an embedded section is stripped while internal nested
brace groups keep their boundary control-character tokens.  Token content is
compared after `token_empty_range` span erasure, exactly as the repository's
own test does. -/
theorem fstring_content_nested_and_interpolation :
    (lexFile "test" "f\"\x7b\x7b\x7b1\x7d\x7d\x7d\"").map (fun l => l.map token_empty_range) =
      Except.ok [(Token.FormatStringLiteral [FmtStringContents.Tokens
        [(Token.ControlChar '\x7b', empty_range),
         (Token.ControlChar '\x7b', empty_range),
         (Token.IntLiteral 1, empty_range),
         (Token.ControlChar '\x7d', empty_range),
         (Token.ControlChar '\x7d', empty_range)]], empty_range)]
    ∧
    (lexFile "test" "f\"FMT \x7bvar\x7d\"").map (fun l => l.map token_empty_range) =
      Except.ok [(Token.FormatStringLiteral
        [FmtStringContents.Char 'F',
         FmtStringContents.Char 'M',
         FmtStringContents.Char 'T',
         FmtStringContents.Char ' ',
         FmtStringContents.Tokens [(Token.Ident "var", empty_range)]], empty_range)] := by
  constructor
  · rw [show lexFile "test" "f\"\x7b\x7b\x7b1\x7d\x7d\x7d\"" =
      Except.ok [(Token.FormatStringLiteral [FmtStringContents.Tokens
        [(Token.ControlChar '\x7b', empty_range),
         (Token.ControlChar '\x7b', empty_range),
         (Token.IntLiteral 1, ⟨5, 6, ⟨"test", "f\"\x7b\x7b\x7b1\x7d\x7d\x7d\""⟩⟩),
         (Token.ControlChar '\x7d', empty_range),
         (Token.ControlChar '\x7d', empty_range)]],
        ⟨0, 10, ⟨"test", "f\"\x7b\x7b\x7b1\x7d\x7d\x7d\""⟩⟩)] from rfl]
    simp [Except.map, token_empty_range, contents_empty_range, spanned_empty_range]
  · rw [show lexFile "test" "f\"FMT \x7bvar\x7d\"" =
      Except.ok [(Token.FormatStringLiteral
        [FmtStringContents.Char 'F',
         FmtStringContents.Char 'M',
         FmtStringContents.Char 'T',
         FmtStringContents.Char ' ',
         FmtStringContents.Tokens
           [(Token.Ident "var", ⟨7, 10, ⟨"test", "f\"FMT \x7bvar\x7d\""⟩⟩)]],
        ⟨0, 12, ⟨"test", "f\"FMT \x7bvar\x7d\""⟩⟩)] from rfl]
    simp [Except.map, token_empty_range, contents_empty_range, spanned_empty_range]

/-- C10: inside a format-string body an unescaped `\x7d` that does not close an
embedded section is an ordinary literal character: `f"\x7d"` lexes to one
`FormatStringLiteral` with content exactly `[Char '\x7d']`. -/
theorem fstring_lone_close_brace :
    lexFile "test" "f\"\x7d\"" =
      Except.ok [(Token.FormatStringLiteral [FmtStringContents.Char '\x7d'],
        ⟨0, 4, ⟨"test", "f\"\x7d\""⟩⟩)] :=
  rfl

/-- C4: an inline-host-code block captures the brace-balanced interior
verbatim with the single outermost brace pair stripped: `go \x7b \x7b\x7d \x7d`
lexes to `InlineGo(" \x7b\x7d ")` and `go \x7b\x7b\x7d\x7b\x7d\x7b\x7d\x7d`
lexes to `InlineGo("\x7b\x7d\x7b\x7d\x7b\x7d")`. -/
theorem inline_go_brace_balanced :
    lexFile "test" "go \x7b \x7b\x7d \x7d" =
      Except.ok [(Token.InlineGo " \x7b\x7d ", ⟨0, 9, ⟨"test", "go \x7b \x7b\x7d \x7d"⟩⟩)]
    ∧
    lexFile "test" "go \x7b\x7b\x7d\x7b\x7d\x7b\x7d\x7d" =
      Except.ok [(Token.InlineGo "\x7b\x7d\x7b\x7d\x7b\x7d",
        ⟨0, 11, ⟨"test", "go \x7b\x7b\x7d\x7b\x7d\x7b\x7d\x7d"⟩⟩)] :=
  ⟨rfl, rfl⟩

/-- C5: keyword recognition never fires on a prefix of a longer identifier:
`typeY=duck\x7b\x7d;` lexes as exactly
`[Ident "typeY", ControlChar '=', Duck, ControlChar '\x7b',
ControlChar '\x7d', ControlChar ';']`. -/
theorem keyword_not_prefix_concrete :
    lexFile "test" "typeY=duck\x7b\x7d;" =
      Except.ok
        [(Token.Ident "typeY", ⟨0, 5, ⟨"test", "typeY=duck\x7b\x7d;"⟩⟩),
         (Token.ControlChar '=', ⟨5, 6, ⟨"test", "typeY=duck\x7b\x7d;"⟩⟩),
         (Token.Duck, ⟨6, 10, ⟨"test", "typeY=duck\x7b\x7d;"⟩⟩),
         (Token.ControlChar '\x7b', ⟨10, 11, ⟨"test", "typeY=duck\x7b\x7d;"⟩⟩),
         (Token.ControlChar '\x7d', ⟨11, 12, ⟨"test", "typeY=duck\x7b\x7d;"⟩⟩),
         (Token.ControlChar ';', ⟨12, 13, ⟨"test", "typeY=duck\x7b\x7d;"⟩⟩)] :=
  rfl

/-- C3 (counterexample): the production pipeline does produce the sentinel
empty span: lexing `f"{{{1}}}"` attaches `empty_range` to the four boundary
control-character tokens of the internal nested brace groups (the `1` at
offsets 5..6 is the only nested token with a real file-coordinate span), so
the spans inside `Tokens` content are not all valid positions of the file and
the sentinel is produced outside the test utility. -/
theorem fstring_nested_boundary_spans_sentinel :
    lexFile "test" "f\"\x7b\x7b\x7b1\x7d\x7d\x7d\"" =
      Except.ok [(Token.FormatStringLiteral [FmtStringContents.Tokens
        [(Token.ControlChar '\x7b', empty_range),
         (Token.ControlChar '\x7b', empty_range),
         (Token.IntLiteral 1, ⟨5, 6, ⟨"test", "f\"\x7b\x7b\x7b1\x7d\x7d\x7d\""⟩⟩),
         (Token.ControlChar '\x7d', empty_range),
         (Token.ControlChar '\x7d', empty_range)]],
        ⟨0, 10, ⟨"test", "f\"\x7b\x7b\x7b1\x7d\x7d\x7d\""⟩⟩)] :=
  rfl

/-- C3 (amended): for every file name, every input and every successful lex,
every span attached to any token of the output — recursively through
format-string `Tokens` content at any nesting depth — is either a valid
(start, end) offset pair in the coordinate system of the original file
(context equal to the file's, start ≤ end ≤ file length), or the sentinel
`empty_range` carried by a synthesized boundary `{`/`}` control-character
token; and every token list `lex_fstring_tokens` produces is bracketed by
exactly such sentinel-spanned boundary tokens, so the production pipeline
does produce the sentinel on them (and only on them). -/
theorem fstring_token_spans_universal (name contents : String)
    (toks : List (Token × SS)) (h : lexFile name contents = Except.ok toks) :
    (∀ ts ∈ toks, tokWFb ⟨name, contents⟩ contents.length ts = true)
    ∧ ∀ (L : P (Token × SS)) (fuel : Nat) (s : List Char) (q : Nat)
        (ts : List (Token × SS)) (s2 : List Char) (p2 : Nat),
        (lex_fstring_tokens L fuel s q).out = some (ts, s2, p2) →
        ts.head? = some (Token.ControlChar '\x7b', empty_range)
        ∧ ts.getLast? = some (Token.ControlChar '\x7d', empty_range) := by
  constructor
  · obtain ⟨p2, hout⟩ := parseStr_ok h
    have hQ : ∀ s p a s2 p2, p + s.length = contents.toList.length →
        (lex_single name contents (contents.length + 1) s p).out = some (a, s2, p2) →
        tokWFb ⟨name, contents⟩ contents.toList.length a = true := by
      intro s p a s2 p2 hc ho
      obtain ⟨t, sp⟩ := a
      exact WF_lex_single name contents (contents.length + 1) s p t sp s2 p2 hc ho
    have hall := repeatedP_forall (consumes_lex_single name contents _) hQ
      (show (0 : Nat) + contents.toList.length = contents.toList.length from
        Nat.zero_add _) hout
    intro ts hts
    exact hall ts hts
  · intro L fuel s q ts s2 p2 ho
    exact lex_fstring_bracketed ho

/-- Witness for the universal C3 theorem at the input `f"FMT {var}"`: the lex
succeeds with the embedded `var` spanned 7..10 of the outer file, and the
single output token is span-wellformed. -/
theorem fstring_token_spans_universal_witness :
    lexFile "test" "f\"FMT \x7bvar\x7d\"" =
      Except.ok [(Token.FormatStringLiteral
        [FmtStringContents.Char 'F',
         FmtStringContents.Char 'M',
         FmtStringContents.Char 'T',
         FmtStringContents.Char ' ',
         FmtStringContents.Tokens
           [(Token.Ident "var", ⟨7, 10, ⟨"test", "f\"FMT \x7bvar\x7d\""⟩⟩)]],
        ⟨0, 12, ⟨"test", "f\"FMT \x7bvar\x7d\""⟩⟩)]
    ∧ tokWFb ⟨"test", "f\"FMT \x7bvar\x7d\""⟩ (String.length "f\"FMT \x7bvar\x7d\"")
        (Token.FormatStringLiteral
          [FmtStringContents.Char 'F',
           FmtStringContents.Char 'M',
           FmtStringContents.Char 'T',
           FmtStringContents.Char ' ',
           FmtStringContents.Tokens
             [(Token.Ident "var", ⟨7, 10, ⟨"test", "f\"FMT \x7bvar\x7d\""⟩⟩)]],
          ⟨0, 12, ⟨"test", "f\"FMT \x7bvar\x7d\""⟩⟩) = true :=
  ⟨rfl,
    (fstring_token_spans_universal "test" "f\"FMT \x7bvar\x7d\""
      [(Token.FormatStringLiteral
        [FmtStringContents.Char 'F',
         FmtStringContents.Char 'M',
         FmtStringContents.Char 'T',
         FmtStringContents.Char ' ',
         FmtStringContents.Tokens
           [(Token.Ident "var", ⟨7, 10, ⟨"test", "f\"FMT \x7bvar\x7d\""⟩⟩)]],
        ⟨0, 12, ⟨"test", "f\"FMT \x7bvar\x7d\""⟩⟩)] rfl).1
      _ (by simp)⟩

/-- C9 (counterexample): lexing `"abc` fails, but the reported span is the
end-of-input position 4..4 where the closing quote was expected, not the
opening quote at offset 0. -/
theorem unterminated_string_error_not_at_quote :
    lexFile "test" "\"abc" = Except.error ⟨4, 4, 4, "found end of input, expected \""⟩
    ∧ (errOf (lexFile "test" "\"abc")).map LexErr.start ≠ some 0 := by
  refine ⟨rfl, ?_⟩
  intro h
  rw [show errOf (lexFile "test" "\"abc")
    = some ⟨4, 4, 4, "found end of input, expected \""⟩ from rfl] at h
  simp at h

/-- C9 (amended): an input ending mid-string fails, and the reported span is
at the end of input (4..4 for `"abc`), the position at which the missing
closing quote was expected. -/
theorem unterminated_string_error_at_eof :
    (errOf (lexFile "test" "\"abc")).map (fun e => (e.start, e.endPos)) = some (4, 4) :=
  rfl

/-- C2 (counterexample): `truex` is a single `\x7b`-free ASCII identifier that
is not a keyword, yet it does not lex to one `Ident` token: the boolean
alternative fires on its prefix and the result is
`[BoolLiteral true, Ident "x"]`. -/
theorem bool_prefix_breaks_ident_claim :
    tokensOf (lexFile "test" "truex") = some [Token.BoolLiteral true, Token.Ident "x"]
    ∧ tokensOf (lexFile "test" "truex") ≠ some [Token.Ident "truex"] := by
  refine ⟨rfl, ?_⟩
  intro h
  rw [show tokensOf (lexFile "test" "truex")
    = some [Token.BoolLiteral true, Token.Ident "x"] from rfl] at h
  simp at h

/-- C6 (counterexample): `00` is a run of decimal digits whose value fits a
signed 64-bit integer, but it does not lex to a single `IntLiteral`: the
integer lexer accepts no leading zeros, so the run splits into two zero
tokens. -/
theorem leading_zero_digit_run :
    tokensOf (lexFile "test" "00") = some [Token.IntLiteral 0, Token.IntLiteral 0]
    ∧ tokensOf (lexFile "test" "00") ≠ some [Token.IntLiteral 0] := by
  refine ⟨rfl, ?_⟩
  intro h
  rw [show tokensOf (lexFile "test" "00")
    = some [Token.IntLiteral 0, Token.IntLiteral 0] from rfl] at h
  simp at h

/-- C7 (counterexample): a nonempty whitespace-only input does not lex to an
empty token sequence — it fails, because no token alternative matches and the
end-of-input check then rejects the unconsumed whitespace. -/
theorem whitespace_only_fails :
    tokensOf (lexFile "test" " ") = none
    ∧ tokensOf (lexFile "test" " ") ≠ some [] := by
  refine ⟨rfl, ?_⟩
  intro h
  rw [show tokensOf (lexFile "test" " ") = none from rfl] at h
  simp at h

/-- C2 (amended): an input that is one ASCII identifier lexes to exactly one
token — the keyword token on an exact keyword match, the boolean token on
exactly `true`/`false`, an `Ident` otherwise — provided neither `true` nor
`false` is a proper prefix of it (`classifyIdent` spells out the
keyword-table-plus-boolean classification; the span is the whole input). -/
theorem lex_single_ascii_ident (name : String) (s : List Char)
    (hid : isIdentStr s = true)
    (ht : List.isPrefixOf "true".toList s = true → s = "true".toList)
    (hf : List.isPrefixOf "false".toList s = true → s = "false".toList) :
    lexFile name (String.mk s) =
      Except.ok [(classifyIdent (String.mk s), ⟨0, s.length, ⟨name, String.mk s⟩⟩)] := by
  obtain ⟨c, rest, rfl⟩ : ∃ c rest, s = c :: rest := by
    cases s with
    | nil => exact absurd hid (by simp [isIdentStr])
    | cons c rest => exact ⟨c, rest, rfl⟩
  have hid' := hid
  simp only [isIdentStr, Bool.and_eq_true, List.all_eq_true, decide_eq_true_eq] at hid'
  have hstart : isIdentStart c = true := hid'.1
  have hrest : ∀ x ∈ rest, isIdentCont x = true := fun x hx => hid'.2 x hx
  by_cases htr : List.isPrefixOf "true".toList (c :: rest) = true
  · rw [ht htr]
    rfl
  · by_cases hfa : List.isPrefixOf "false".toList (c :: rest) = true
    · rw [hf hfa]
      rfl
    · have htr' : List.isPrefixOf "true".toList (c :: rest) = false :=
        Bool.eq_false_iff.mpr htr
      have hfa' : List.isPrefixOf "false".toList (c :: rest) = false :=
        Bool.eq_false_iff.mpr hfa
      have hmain := lex_single_ident_out name (String.mk (c :: rest)) (c :: rest).length 0
        c rest hstart hrest htr' hfa'
      rw [Nat.zero_add] at hmain
      have hres := lexFile_single_token name (c :: rest) _ hmain
      rw [hres]
      have hne1 : String.mk (c :: rest) ≠ "true" := by
        intro hh
        have hlist : c :: rest = "true".toList := congrArg String.toList hh
        rw [hlist] at htr'
        rw [show List.isPrefixOf "true".toList "true".toList = true from rfl] at htr'
        exact Bool.noConfusion htr'
      have hne2 : String.mk (c :: rest) ≠ "false" := by
        intro hh
        have hlist : c :: rest = "false".toList := congrArg String.toList hh
        rw [hlist] at hfa'
        rw [show List.isPrefixOf "false".toList "false".toList = true from rfl] at hfa'
        exact Bool.noConfusion hfa'
      unfold classifyIdent
      rw [if_neg hne1, if_neg hne2]

/-- Witness for the amended C2 theorem at the identifier `typ`. -/
theorem lex_single_ascii_ident_witness :
    isIdentStr "typ".toList = true ∧
    lexFile "test" (String.mk "typ".toList) =
      Except.ok [(classifyIdent (String.mk "typ".toList),
        ⟨0, "typ".toList.length, ⟨"test", String.mk "typ".toList⟩⟩)] := by
  refine ⟨by decide, lex_single_ascii_ident "test" "typ".toList (by decide) ?_ ?_⟩
  · intro h
    exact absurd h (by decide)
  · intro h
    exact absurd h (by decide)

/-- C6 (amended): a run of decimal digits with no leading zero whose value
fits a signed 64-bit integer lexes to the single `IntLiteral` holding its
value, and `1.1` lexes to the single float literal `1.1` (modelled by its
numeral), never as `1`, `.`, `1`. -/
theorem digit_run_int_literal (name : String) (s : List Char)
    (hne : s ≠ [])
    (hdig : ∀ d ∈ s, d ∈ "0123456789".toList)
    (hlead : s.head? = some '0' → s = ['0'])
    (hfit : digitsToNat s ≤ i64Max) :
    lexFile name (String.mk s) =
      Except.ok [(Token.IntLiteral (Int.ofNat (digitsToNat s)),
        ⟨0, s.length, ⟨name, String.mk s⟩⟩)]
    ∧ lexFile "test" "1.1" =
      Except.ok [(Token.FloatLiteral "1.1", ⟨0, 3, ⟨"test", "1.1"⟩⟩)] := by
  refine ⟨?_, rfl⟩
  obtain ⟨c, rest, rfl⟩ : ∃ c rest, s = c :: rest := by
    cases s with
    | nil => exact absurd rfl hne
    | cons c rest => exact ⟨c, rest, rfl⟩
  have hlead' : c = '0' → rest = [] := by
    intro hc
    subst hc
    have := hlead rfl
    simpa using this
  have hmain := lex_single_digits_out name (String.mk (c :: rest)) (c :: rest).length 0
    c rest hdig hlead' hfit
  rw [Nat.zero_add] at hmain
  exact lexFile_single_token name (c :: rest) _ hmain

/-- Witness for the amended C6 theorem at the digit run `2003`. -/
theorem digit_run_int_literal_witness :
    "2003".toList ≠ [] ∧
    (lexFile "test" (String.mk "2003".toList) =
      Except.ok [(Token.IntLiteral (Int.ofNat (digitsToNat "2003".toList)),
        ⟨0, "2003".toList.length, ⟨"test", String.mk "2003".toList⟩⟩)]
    ∧ lexFile "test" "1.1" =
      Except.ok [(Token.FloatLiteral "1.1", ⟨0, 3, ⟨"test", "1.1"⟩⟩)]) := by
  refine ⟨by decide, digit_run_int_literal "test" "2003".toList (by decide) (by decide) ?_
    (by decide)⟩
  intro h
  exact absurd h (by decide)

/-- C7 (amended): the empty input lexes to the empty token sequence with no
error, but a nonempty whitespace-only input fails and yields no tokens. -/
theorem whitespace_only_lex (name : String) (s : List Char)
    (h : ∀ c ∈ s, isWs c = true) :
    tokensOf (lexFile name (String.mk s)) = if s.isEmpty then some [] else none := by
  cases s with
  | nil => rfl
  | cons c rest =>
    have hdrop : (c :: rest).dropWhile isWs = [] := dropWhile_eq_nil_of_all _ _ h
    have h1 : ∀ q, (lex_single name (String.mk (c :: rest))
        ((String.mk (c :: rest)).length + 1) (c :: rest) q).out = none := by
      intro q
      show (padded (mapWithSpan
        (token_choice (lex_single name (String.mk (c :: rest)) (String.mk (c :: rest)).length)
          (String.mk (c :: rest)).length)
        (spanned_with name (String.mk (c :: rest)))) (c :: rest) q).out = none
      rw [padded_out, hdrop]
      rw [mapWithSpan_out_none _ (token_choice_out_nil _ _ _)]
    have H : (repeatedAux (lex_single name (String.mk (c :: rest))
        ((String.mk (c :: rest)).length + 1)) ((c :: rest).length + 1)
        (c :: rest) 0 [] none).out = some ([], c :: rest, 0) := by
      show (repeatedAux _ ((rest.length + 1) + 1) _ _ _ _).out = _
      simp only [repeatedAux, h1]
      rfl
    show tokensOf (parseStr (lexer name (String.mk (c :: rest))) (String.mk (c :: rest)))
      = none
    unfold parseStr lexer repeatedP
    rw [show (String.mk (c :: rest)).toList = c :: rest from rfl]
    simp only [H]
    rfl

/-- Witness for the amended C7 theorem at the single-space input. -/
theorem whitespace_only_lex_witness :
    (∀ c ∈ " ".toList, isWs c = true) ∧
    tokensOf (lexFile "test" (String.mk " ".toList)) =
      if (" ".toList).isEmpty then some [] else none := by
  refine ⟨by decide, whitespace_only_lex "test" " ".toList (by decide)⟩

end DuckLexer
